import Mathlib

/-!
# Verification of the ground-truth ingestion pipeline

A shallow embedding, in Lean 4, of the core of the `ground-truth` backend:

* `app/ingestion/rss.py` — URL canonicalization (a faithful port of the
  CPython 3.11 `urllib.parse` functions it calls: `urlsplit`, `parse_qsl`,
  `urlencode`, `urlunsplit`, `quote_plus`, `unquote`), RFC-2822 date parsing
  (a port of `email.utils.parsedate_to_datetime`), and the feed reader
  `parse_rss_feed`.
* `app/main.py` — the ingestion coordinator `_persist_sources_and_articles`
  (including a small-step interleaving model for two concurrent runs), the
  feed query service `get_feed` and `get_article_by_id`.
* `scripts/backfill_primary_categories.py` — the category backfill job.

Modelling conventions:

* Python strings are modelled as `List Char` (with `String` wrappers at the
  boundaries).  Percent-escapes are decoded bytewise (`%XX` becomes the char
  of code `XX`); CPython additionally decodes consecutive escaped bytes as
  UTF-8, which coincides with this model on ASCII data.
* Python `datetime` values are modelled by `PyDateTime` (civil fields plus an
  optional fixed UTC offset, `none` meaning a naive datetime); timestamps in
  the relational store are modelled as integers ordered like the underlying
  `DATETIME` column, and the ISO-8601 cursor round-trip
  (`_datetime_to_iso8601` / `_parse_cursor`), which is the identity on stored
  datetimes, is modelled as the identity on those integers.
* Fallible Python code (functions that can raise) returns `Option`/`Except`.
* The relational store is a record of lists of rows; SQL `SELECT ... WHERE
  ... ORDER BY ... LIMIT` is modelled as filter, then a deterministic
  insertion sort on the sort key, then `take` (`ORDER BY` leaves the relative
  order of equal keys backend-defined; the proofs about ordering only rely on
  it where sort keys are distinct, and counterexamples about ties hold for
  any tie order).
-/

namespace GroundTruth

/-! ## Python string primitives -/

/-- The characters of a Python `str`, as a list. -/
def chars (s : String) : List Char := s.data

/-- Rebuild a `String` from a list of characters. -/
def strOf (l : List Char) : String := String.mk l

/-- ASCII lowercase of one character, as Python `str.lower` acts on ASCII. -/
def lowerChar (c : Char) : Char :=
  if 'A' ≤ c ∧ c ≤ 'Z' then Char.ofNat (c.toNat + 32) else c

/-- `c` is an ASCII letter (so Python's `c.isascii() and c.isalpha()`). -/
def isAsciiAlphaChar (c : Char) : Bool :=
  ('a' ≤ c && c ≤ 'z') || ('A' ≤ c && c ≤ 'Z')

/-- `c` is an ASCII digit. -/
def isDigitChar (c : Char) : Bool := '0' ≤ c && c ≤ '9'

/-- Membership in `urllib.parse.scheme_chars`. -/
def isSchemeChar (c : Char) : Bool :=
  isAsciiAlphaChar c || isDigitChar c || c == '+' || c == '-' || c == '.'

/-- Membership in `urllib.parse._WHATWG_C0_CONTROL_OR_SPACE`. -/
def isC0ControlOrSpace (c : Char) : Bool := c.toNat ≤ 32

/-- Membership in `urllib.parse._UNSAFE_URL_BYTES_TO_REMOVE`. -/
def isUnsafeUrlByte (c : Char) : Bool := c == '\t' || c == '\r' || c == '\n'

/-- ASCII whitespace, for modelling Python `str.strip()` / `str.split()`
(CPython also strips some further Unicode whitespace; the data this system
handles is ASCII). -/
def isPyWhitespace (c : Char) : Bool :=
  c == ' ' || c == '\t' || c == '\n' || c == '\r' || c == '\x0b' || c == '\x0c'

/-- Python `s.strip()` on ASCII whitespace. -/
def pyStrip (l : List Char) : List Char :=
  ((l.dropWhile isPyWhitespace).reverse.dropWhile isPyWhitespace).reverse

/-- Python `s.split(sep)` for a one-character separator (`''.split(c) = ['']`). -/
def splitOnChar (sep : Char) : List Char → List (List Char)
  | [] => [[]]
  | c :: cs =>
    let r := splitOnChar sep cs
    if c = sep then [] :: r
    else
      match r with
      | [] => [[c]]
      | g :: gs => (c :: g) :: gs

/-- Python `s.split()` (no argument): split on whitespace runs, dropping
empty fields. -/
def pySplitWs (l : List Char) : List (List Char) :=
  ((splitOnChar ' ' (l.map fun c => if isPyWhitespace c then ' ' else c)).filter
    fun g => ¬g.isEmpty)

/-- Split at the first occurrence of `c`; `none` when `c` does not occur
(Python `s.split(c, 1)` / `s.find(c)`). -/
def splitAtFirst (c : Char) : List Char → Option (List Char × List Char)
  | [] => none
  | x :: xs =>
    if x = c then some ([], xs)
    else
      match splitAtFirst c xs with
      | none => none
      | some (b, a) => some (x :: b, a)

/-- Python `int(s)`: optional surrounding whitespace, optional sign, at least
one digit (CPython also accepts `_` digit separators, which never occur in
the data handled here). -/
def pyInt? (l : List Char) : Option Int :=
  let t := pyStrip l
  let (sign, digits) :=
    match t with
    | '+' :: rest => ((1 : Int), rest)
    | '-' :: rest => ((-1 : Int), rest)
    | _ => ((1 : Int), t)
  if digits.isEmpty ∨ ¬digits.all isDigitChar then none
  else some (sign * (digits.foldl (fun acc c => acc * 10 + (c.toNat - 48)) (0 : Nat) : Nat))

/-- Python string comparison (`<` on `str`): lexicographic on code points. -/
def pyStrLt : List Char → List Char → Bool
  | [], [] => false
  | [], _ :: _ => true
  | _ :: _, [] => false
  | x :: xs, y :: ys => if x = y then pyStrLt xs ys else decide (x < y)

/-- Python `<=` on `str`. -/
def pyStrLe (a b : List Char) : Bool := ¬pyStrLt b a

instance {ε α : Type} [DecidableEq ε] [DecidableEq α] : DecidableEq (Except ε α) := fun a b =>
  match a, b with
  | .error e, .error f =>
    if h : e = f then .isTrue (congrArg Except.error h)
    else .isFalse fun hh => h (Except.error.inj hh)
  | .error _, .ok _ => .isFalse fun hh => Except.noConfusion hh
  | .ok _, .error _ => .isFalse fun hh => Except.noConfusion hh
  | .ok x, .ok y =>
    if h : x = y then .isTrue (congrArg Except.ok h)
    else .isFalse fun hh => h (Except.ok.inj hh)

/-! ## `urllib.parse` (CPython 3.11) -/

/-- The five components returned by `urllib.parse.urlsplit`. -/
structure SplitResult where
  scheme : List Char
  netloc : List Char
  path : List Char
  query : List Char
  fragment : List Char
deriving DecidableEq, Repr

/-- `urllib.parse.uses_netloc` (the schemes for which `urlunsplit`
reintroduces a `//`). -/
def uses_netloc : List String :=
  ["", "ftp", "http", "gopher", "nntp", "telnet", "imap", "wais", "file",
   "mms", "https", "shttp", "snews", "prospero", "rtsp", "rtsps", "rtspu",
   "rsync", "svn", "svn+ssh", "sftp", "nfs", "git", "git+ssh", "ws", "wss"]

/-- A hexadecimal digit's value, if `c` is one. -/
def hexVal? (c : Char) : Option Nat :=
  if '0' ≤ c ∧ c ≤ '9' then some (c.toNat - 48)
  else if 'a' ≤ c ∧ c ≤ 'f' then some (c.toNat - 87)
  else if 'A' ≤ c ∧ c ≤ 'F' then some (c.toNat - 55)
  else none

/-- A decimal octet as accepted by `ipaddress.IPv4Address`: 1–3 digits,
value at most 255, no leading zero. -/
def isIPv4Octet (g : List Char) : Bool :=
  ¬g.isEmpty && g.length ≤ 3 && g.all isDigitChar &&
    (g.foldl (fun acc c => acc * 10 + (c.toNat - 48)) 0 ≤ 255) &&
    (g.head? ≠ some '0' || g.length == 1)

/-- A dotted-quad IPv4 address. -/
def isIPv4Address (l : List Char) : Bool :=
  let gs := splitOnChar '.' l
  gs.length == 4 && gs.all isIPv4Octet

/-- One 16-bit IPv6 group: 1–4 hex digits. -/
def isIPv6Group (g : List Char) : Bool :=
  ¬g.isEmpty && g.length ≤ 4 && g.all (fun c => (hexVal? c).isSome)

/-- An IPv6 address body (no zone), as accepted by `ipaddress.IPv6Address`:
hex groups separated by `:`, at most one `::` compression, optionally a
trailing dotted-quad counting as two groups. -/
def isIPv6Body (l : List Char) : Bool :=
  let gs := splitOnChar ':' l
  let checkRun : List (List Char) → Option Nat := fun run =>
    match run.reverse with
    | [] => some 0
    | last :: initRev =>
      if initRev.all isIPv6Group then
        if isIPv6Group last then some run.length
        else if isIPv4Address last then some (run.length + 1)
        else none
      else none
  match gs with
  | [] => false
  | _ =>
    if gs.all (fun g => ¬g.isEmpty) then
      checkRun gs == some 8
    else
      -- exactly one `::`; it may sit at the start, middle or end
      let ok (pre post : List (List Char)) : Bool :=
        pre.all isIPv6Group &&
          (match checkRun post with
           | some n => (pre.length + n) ≤ 7
           | none => false)
      match gs with
      | [[], [], []] => true
      | [] :: [] :: post => post.all (fun g => ¬g.isEmpty) && ok [] post
      | rest =>
        match rest.reverse with
        | [] :: [] :: preRev =>
          preRev.all (fun g => ¬g.isEmpty) && ok preRev.reverse []
        | _ =>
          -- a single interior empty group
          let idx := rest.findIdx (·.isEmpty)
          let pre := rest.take idx
          let post := rest.drop (idx + 1)
          ¬pre.isEmpty && ¬post.isEmpty &&
            pre.all (fun g => ¬g.isEmpty) && post.all (fun g => ¬g.isEmpty) &&
            ok pre post

/-- `urllib.parse._check_bracketed_host` (CPython 3.11): the text between
`[` and `]` must be an IPvFuture literal (`v<hex>+.<rest>`) or an IPv6
address with optional non-empty `%zone`; anything else (including IPv4)
raises `ValueError`. -/
def bracketedHostOk (h : List Char) : Bool :=
  match h with
  | 'v' :: rest =>
    (match splitAtFirst '.' rest with
     | some (hexPart, tail) =>
       ¬hexPart.isEmpty && hexPart.all (fun c => (hexVal? c).isSome) && ¬tail.isEmpty
     | none => false)
  | _ =>
    match splitAtFirst '%' h with
    | some (addr, zone) => ¬zone.isEmpty && ¬zone.contains '%' && isIPv6Body addr
    | none => isIPv6Body h

/-- `urllib.parse._splitnetloc`: the netloc runs to the first `/`, `?` or `#`. -/
def splitNetloc (l : List Char) : List Char × List Char :=
  (l.takeWhile (fun c => ¬(c = '/' ∨ c = '?' ∨ c = '#')),
   l.dropWhile (fun c => ¬(c = '/' ∨ c = '?' ∨ c = '#')))

/-- Split at the first occurrence of `c`, or keep everything when absent
(the shape of `url.split(sep, 1)` used for the `#` and `?` delimiters). -/
def splitAtFirstD (c : Char) (l : List Char) : List Char × List Char :=
  match splitAtFirst c l with
  | some p => p
  | none => (l, [])

/-- The scheme-detection step of `urlsplit`: a leading `:`-terminated token
of scheme characters starting with an ASCII letter is the (lowercased)
scheme. -/
def urlsplitScheme (url2 : List Char) : List Char × List Char :=
  match splitAtFirst ':' url2 with
  | some (before, after) =>
    if ¬before.isEmpty ∧ before.headI.toNat < 128 ∧ isAsciiAlphaChar before.headI
        ∧ before.all isSchemeChar then
      (before.map lowerChar, after)
    else ([], url2)
  | none => ([], url2)

/-- The bracket sanity checks `urlsplit` performs on a netloc; failing
either raises `ValueError`. -/
def netlocBracketsOk (netloc : List Char) : Bool :=
  if (netloc.contains '[' && ¬netloc.contains ']')
      || (netloc.contains ']' && ¬netloc.contains '[') then false
  else if netloc.contains '[' && netloc.contains ']' then
    bracketedHostOk (((netloc.dropWhile (· ≠ '[')).drop 1).takeWhile (· ≠ ']'))
  else true

/-- The netloc-detection step of `urlsplit`: after a leading `//`, the
netloc runs to the first `/`, `?` or `#` and must pass the bracket checks
(`none` models the `ValueError`). -/
def urlsplitNetloc (url3 : List Char) : Option (List Char × List Char) :=
  if url3.take 2 = ['/', '/'] then
    if netlocBracketsOk (splitNetloc (url3.drop 2)).1 then
      some (splitNetloc (url3.drop 2))
    else none
  else some ([], url3)

/-- `urllib.parse.urlsplit` (CPython 3.11), with `allow_fragments=True` and no
default scheme.  `none` models the `ValueError` raised for a mismatched
bracket or an invalid bracketed host.  (The `_checknetloc` NFKC check only
rejects certain non-ASCII netlocs and is modelled as passing.) -/
def urlsplit (url0 : List Char) : Option SplitResult :=
  let url1 := url0.dropWhile isC0ControlOrSpace
  let url2 := url1.filter fun c => ¬isUnsafeUrlByte c
  match urlsplitScheme url2 with
  | (scheme, url3) =>
    match urlsplitNetloc url3 with
    | none => none
    | some (netloc, url4) =>
      match splitAtFirstD '#' url4 with
      | (url5, fragment) =>
        match splitAtFirstD '?' url5 with
        | (path, query) => some ⟨scheme, netloc, path, query, fragment⟩

/-- `urllib.parse.urlunsplit` (CPython 3.11). -/
def urlunsplit (s : SplitResult) : List Char :=
  let url := s.path
  let url :=
    if ¬s.netloc.isEmpty
        ∨ (¬s.scheme.isEmpty ∧ strOf s.scheme ∈ uses_netloc ∧ url.take 2 ≠ ['/', '/']) then
      let url := if ¬url.isEmpty ∧ url.take 1 ≠ ['/'] then '/' :: url else url
      '/' :: '/' :: (s.netloc ++ url)
    else url
  let url := if ¬s.scheme.isEmpty then s.scheme ++ ':' :: url else url
  let url := if ¬s.query.isEmpty then url ++ '?' :: s.query else url
  let url := if ¬s.fragment.isEmpty then url ++ '#' :: s.fragment else url
  url

/-- UTF-8 encoding of one character, as byte values. -/
def encodeCharUtf8 (c : Char) : List Nat :=
  let n := c.toNat
  if n < 0x80 then [n]
  else if n < 0x800 then [0xC0 + n / 64, 0x80 + n % 64]
  else if n < 0x10000 then
    [0xE0 + n / 4096, 0x80 + (n / 64) % 64, 0x80 + n % 64]
  else
    [0xF0 + n / 262144, 0x80 + (n / 4096) % 64, 0x80 + (n / 64) % 64, 0x80 + n % 64]

/-- UTF-8 encoding of a string (`str.encode('utf-8')`). -/
def utf8Bytes (l : List Char) : List Nat := l.flatMap encodeCharUtf8

/-- `urllib.parse._ALWAYS_SAFE`: ASCII letters, digits, `_.-~`. -/
def isAlwaysSafeByte (b : Nat) : Bool :=
  (65 ≤ b && b ≤ 90) || (97 ≤ b && b ≤ 122) || (48 ≤ b && b ≤ 57) ||
    b == 95 || b == 46 || b == 45 || b == 126

/-- Uppercase hex digit. -/
def hexUpperDigit (n : Nat) : Char :=
  if n < 10 then Char.ofNat (48 + n) else Char.ofNat (55 + n)

/-- Percent-quote one byte (`urllib.parse.quote_from_bytes`, per byte). -/
def quoteByte (safe : List Nat) (b : Nat) : List Char :=
  if isAlwaysSafeByte b || safe.contains b then [Char.ofNat b]
  else ['%', hexUpperDigit (b / 16), hexUpperDigit (b % 16)]

/-- `urllib.parse.quote(s, safe)`. -/
def pyQuote (safe : List Char) (s : List Char) : List Char :=
  let safeBytes := (safe.map Char.toNat).filter (· < 128)
  (utf8Bytes s).flatMap (quoteByte safeBytes)

/-- `urllib.parse.quote_plus(s)` with `safe=''` (the `urlencode` default):
spaces become `+`, everything outside `_ALWAYS_SAFE` is percent-escaped. -/
def quote_plus (s : List Char) : List Char :=
  if ¬s.contains ' ' then pyQuote [] s
  else (pyQuote [' '] s).map fun c => if c = ' ' then '+' else c

/-- `urllib.parse.unquote`, bytewise: each `%XX` hex escape becomes the
character of code `XX`; a `%` not followed by two hex digits is literal.
(CPython additionally decodes consecutive escaped bytes as UTF-8; the two
agree on ASCII escapes, the only ones this system produces.) -/
def unquoteAux : Nat → List Char → List Char
  | _, [] => []
  | 0, l => l
  | fuel + 1, c :: rest =>
    if c = '%' then
      match rest with
      | h1 :: h2 :: rest2 =>
        (match hexVal? h1, hexVal? h2 with
         | some a, some b => Char.ofNat (16 * a + b) :: unquoteAux fuel rest2
         | _, _ => '%' :: unquoteAux fuel rest)
      | _ => '%' :: unquoteAux fuel rest
    else c :: unquoteAux fuel rest

/-- `urllib.parse.unquote`, bytewise (see `unquoteAux`; the fuel is an upper
bound on the number of characters consumed, so `l.length` always suffices). -/
def unquoteCore (l : List Char) : List Char :=
  unquoteAux l.length l

/-- `urllib.parse.parse_qsl(qs, keep_blank_values=True)` (the call made by
`_canonicalize_url`): split on `&`, drop empty fields, split each field at
the first `=` (a field with no `=` keeps a blank value), turn `+` into a
space and percent-decode names and values. -/
def parse_qsl (qs : List Char) : List (List Char × List Char) :=
  if qs.isEmpty then []
  else
    (splitOnChar '&' qs).filterMap fun nv =>
      if nv.isEmpty then none
      else
        let (name, value) :=
          match splitAtFirst '=' nv with
          | some (n, v) => (n, v)
          | none => (nv, [])
        some (unquoteCore (name.map fun c => if c = '+' then ' ' else c),
              unquoteCore (value.map fun c => if c = '+' then ' ' else c))

/-- Join with a separator character (`sep.join`). -/
def joinSep (sep : Char) : List (List Char) → List Char
  | [] => []
  | [x] => x
  | x :: xs => x ++ sep :: joinSep sep xs

/-- `urllib.parse.urlencode(params, doseq=True)` on string pairs:
`quote_plus(k) + '=' + quote_plus(v)` joined with `&`. -/
def urlencode (params : List (List Char × List Char)) : List Char :=
  joinSep '&' (params.map fun kv => quote_plus kv.1 ++ '=' :: quote_plus kv.2)

/-! ## `app/ingestion/rss.py`: URL canonicalization -/

/-- `TRACKING_QUERY_PARAMS` from `app/ingestion/rss.py`. -/
def TRACKING_QUERY_PARAMS : List String :=
  ["fbclid", "gclid", "igshid", "mc_cid", "mc_eid"]

/-- The filter applied to one parsed query pair by `_canonicalize_url`:
drop keys starting with `utm_` and keys in `TRACKING_QUERY_PARAMS`. -/
def keepParam (kv : List Char × List Char) : Bool :=
  ¬(chars "utm_").isPrefixOf kv.1 && ¬TRACKING_QUERY_PARAMS.contains (strOf kv.1)

/-- The query pairs `_canonicalize_url` keeps, in their original order. -/
def keptParams (query : List Char) : List (List Char × List Char) :=
  (parse_qsl query).filter keepParam

/-- `_canonicalize_url` from `app/ingestion/rss.py`.  `none` models the
`ValueError` that `urlsplit` raises on a malformed bracketed netloc. -/
def canonicalizeCore (url : List Char) : Option (List Char) :=
  (urlsplit url).map fun parts =>
    let canonical_query := urlencode (keptParams parts.query)
    urlunsplit ⟨parts.scheme, parts.netloc, parts.path, canonical_query, []⟩

/-- `canonicalize_url` from `app/ingestion/rss.py` (the public wrapper). -/
def canonicalize_url (url : String) : Option String :=
  (canonicalizeCore (chars url)).map strOf

/-- The character alphabet of `urlencode` output: unreserved bytes, the
percent-escape characters, `+`, and the `=`/`&` separators. -/
def qsafeChar (c : Char) : Bool :=
  isAlwaysSafeByte c.toNat || c = '%' || c = '+' || c = '=' || c = '&'

/-! ## Python `datetime` (fixed-offset) -/

/-- ASCII uppercase of one character, as Python `str.upper` acts on ASCII. -/
def upperChar (c : Char) : Char :=
  if 'a' ≤ c ∧ c ≤ 'z' then Char.ofNat (c.toNat - 32) else c

/-- A Python `datetime`: civil fields plus an optional fixed UTC offset in
seconds (`none` models a naive datetime, `some o` a `timezone(timedelta)`
tzinfo). -/
structure PyDateTime where
  year : Int
  month : Nat
  day : Nat
  hour : Nat
  minute : Nat
  second : Nat
  tzOffsetSeconds : Option Int
deriving DecidableEq, Repr

/-- Gregorian leap year. -/
def isLeapYear (y : Int) : Bool :=
  (y % 4 == 0 && y % 100 != 0) || y % 400 == 0

/-- Days in a month of the proleptic Gregorian calendar. -/
def daysInMonth (y : Int) (m : Nat) : Nat :=
  if m = 2 then (if isLeapYear y then 29 else 28)
  else if m = 4 ∨ m = 6 ∨ m = 9 ∨ m = 11 then 30
  else 31

/-- The field ranges `datetime.datetime(...)` accepts (it raises `ValueError`
otherwise). -/
def validCivil (y : Int) (mo d h mi s : Nat) : Bool :=
  1 ≤ y && y ≤ 9999 && 1 ≤ mo && mo ≤ 12 && 1 ≤ d && d ≤ daysInMonth y mo &&
    h ≤ 23 && mi ≤ 59 && s ≤ 59

/-- Days since 1970-01-01 of a civil date (valid dates have `y ≥ 1`, so all
intermediate quantities are non-negative). -/
def daysFromCivil (y : Int) (m d : Nat) : Int :=
  let yAdj : Int := if m ≤ 2 then y - 1 else y
  let era : Int := (if 0 ≤ yAdj then yAdj else yAdj - 399) / 400
  let yoe : Int := yAdj - era * 400
  let mp : Int := ((m : Int) + 9) % 12
  let doy : Int := (153 * mp + 2) / 5 + ((d : Int) - 1)
  let doe : Int := yoe * 365 + yoe / 4 - yoe / 100 + doy
  era * 146097 + doe - 719468

/-- Civil date from days since 1970-01-01 (inverse of `daysFromCivil`). -/
def civilFromDays (z0 : Int) : Int × Nat × Nat :=
  let z := z0 + 719468
  let era : Int := (if 0 ≤ z then z else z - 146096) / 146097
  let doe : Int := z - era * 146097
  let yoe : Int := (doe - doe / 1460 + doe / 36524 - doe / 146096) / 365
  let y : Int := yoe + era * 400
  let doy : Int := doe - (365 * yoe + yoe / 4 - yoe / 100)
  let mp : Int := (5 * doy + 2) / 153
  let d : Int := doy - (153 * mp + 2) / 5 + 1
  let m : Int := mp + (if mp < 10 then 3 else -9)
  (y + (if m ≤ 2 then 1 else 0), m.toNat, d.toNat)

/-- Seconds since the epoch of a civil datetime (UTC reading). -/
def epochOfCivil (y : Int) (mo d h mi s : Nat) : Int :=
  daysFromCivil y mo d * 86400 + (h : Int) * 3600 + (mi : Int) * 60 + (s : Int)

/-- Civil datetime (UTC reading) of seconds since the epoch. -/
def civilOfEpoch (t : Int) : Int × Nat × Nat × Nat × Nat × Nat :=
  let days := Int.ediv t 86400
  let sod := (Int.emod t 86400).toNat
  let (y, mo, d) := civilFromDays days
  (y, mo, d, sod / 3600, (sod / 60) % 60, sod % 60)

/-- `dt.replace(tzinfo=UTC)` for a naive value, `dt.astimezone(UTC)` for an
aware one — exactly the normalization performed by `_to_iso8601`. -/
def toUtc (dt : PyDateTime) : PyDateTime :=
  match dt.tzOffsetSeconds with
  | none => { dt with tzOffsetSeconds := some 0 }
  | some off =>
    let t := epochOfCivil dt.year dt.month dt.day dt.hour dt.minute dt.second - off
    match civilOfEpoch t with
    | (y, mo, d, h, mi, s) => ⟨y, mo, d, h, mi, s, some 0⟩

/-- Zero-padded two-digit decimal. -/
def pad2 (n : Nat) : List Char :=
  if n < 10 then '0' :: chars (toString n) else chars (toString n)

/-- Zero-padded four-digit year (valid datetimes have `1 ≤ y ≤ 9999`). -/
def pad4 (y : Int) : List Char :=
  let s := chars (toString y.toNat)
  List.replicate (4 - s.length) '0' ++ s

/-- `dt.isoformat().replace("+00:00", "Z")` for a UTC-offset datetime with
zero microseconds — the shape produced everywhere in the ingestion code. -/
def isoZ (y : Int) (mo d h mi s : Nat) : String :=
  strOf (pad4 y ++ '-' :: pad2 mo ++ '-' :: pad2 d ++ 'T' :: pad2 h ++ ':' :: pad2 mi
    ++ ':' :: pad2 s) ++ "Z"

/-! ## `email.utils.parsedate_to_datetime` (CPython 3.11) -/

/-- `email._parseaddr._daynames`. -/
def pyDaynames : List String := ["mon", "tue", "wed", "thu", "fri", "sat", "sun"]

/-- `email._parseaddr._monthnames`. -/
def pyMonthnames : List String :=
  ["jan", "feb", "mar", "apr", "may", "jun", "jul", "aug", "sep", "oct", "nov", "dec",
   "january", "february", "march", "april", "may", "june", "july", "august",
   "september", "october", "november", "december"]

/-- `email._parseaddr._timezones`. -/
def pyTimezones : List (String × Int) :=
  [("UT", 0), ("UTC", 0), ("GMT", 0), ("Z", 0), ("AST", -400), ("ADT", -300),
   ("EST", -500), ("EDT", -400), ("CST", -600), ("CDT", -500), ("MST", -700),
   ("MDT", -600), ("PST", -800), ("PDT", -700)]

/-- `email._parseaddr._parsedate_tz`: RFC-2822 date parsing, returning
`(year, month, day, hour, minute, second, tz-offset-in-seconds?)`; day,
hour, minute, second come from Python `int()` and are range-checked only
later by `datetime(...)`.  A `none` offset models both a missing zone and
the `-0000` declaimed-UTC case. -/
def parsedate_tz (data0 : List Char) :
    Option (Int × Nat × Int × Int × Int × Int × Option Int) :=
  if data0.isEmpty then none else
  let data := pySplitWs data0
  if data.isEmpty then none else
  let data :=
    match data with
    | [] => []
    | d0 :: rest =>
      if d0.getLast? = some ',' ∨ pyDaynames.contains (strOf (d0.map lowerChar)) then rest
      else
        match splitAtFirst ',' d0.reverse with
        | some (afterRev, _) => afterRev.reverse :: rest
        | none => d0 :: rest
  let data :=
    if data.length = 3 then
      match data with
      | d0 :: rest =>
        let stuff := splitOnChar '-' d0
        if stuff.length = 3 then stuff ++ rest else d0 :: rest
      | [] => data
    else data
  let data :=
    if data.length = 4 then
      match data.getLast? with
      | some s =>
        let found : Option (List Char × List Char) :=
          match splitAtFirst '+' s with
          | some (b, a) => some (b, '+' :: a)
          | none =>
            match splitAtFirst '-' s with
            | some (b, a) => some (b, '-' :: a)
            | none => none
        match found with
        | some (b, a) => if ¬b.isEmpty then data.dropLast ++ [b, a] else data ++ [[]]
        | none => data ++ [[]]
      | none => data
    else data
  if data.length < 5 then none else
  match data.take 5 with
  | [dd0, mm0, yy0, tm0, tz0] =>
    if dd0.isEmpty ∨ mm0.isEmpty ∨ yy0.isEmpty then none else
    let mm1 := mm0.map lowerChar
    let (dd1, mm2) :=
      if ¬pyMonthnames.contains (strOf mm1) then (mm1, dd0.map lowerChar) else (dd0, mm1)
    if ¬pyMonthnames.contains (strOf mm2) then none else
    let mmIdx := (pyMonthnames.indexOf (strOf mm2)) + 1
    let mmN := if mmIdx > 12 then mmIdx - 12 else mmIdx
    let dd2 := if dd1.getLast? = some ',' then dd1.dropLast else dd1
    let (yy1, tm1) :=
      match splitAtFirst ':' yy0 with
      | some (b, _) => if ¬b.isEmpty then (tm0, yy0) else (yy0, tm0)
      | none => (yy0, tm0)
    let trimmedYY := yy1.getLast? = some ','
    let yy2 := if trimmedYY then yy1.dropLast else yy1
    if trimmedYY ∧ yy2.isEmpty then none else
    let (yy3, tz1) :=
      if ¬isDigitChar yy2.headI then (tz0, yy2) else (yy2, tz0)
    let tm2 := if tm1.getLast? = some ',' then tm1.dropLast else tm1
    let tmParts := splitOnChar ':' tm2
    let hms? : Option (List Char × List Char × List Char) :=
      match tmParts with
      | [a, b] => some (a, b, chars "0")
      | [a, b, c] => some (a, b, c)
      | [a] =>
        if a.contains '.' then
          match splitOnChar '.' a with
          | [x, y] => some (x, y, chars "0")
          | [x, y, z] => some (x, y, z)
          | _ => none
        else none
      | _ => none
    match hms? with
    | none => none
    | some (thh0, tmm0, tss0) =>
      match pyInt? yy3, pyInt? dd2, pyInt? thh0, pyInt? tmm0, pyInt? tss0 with
      | some yyN, some ddN, some thhN, some tmmN, some tssN =>
        let yyN := if yyN < 100 then (if yyN > 68 then yyN + 1900 else yyN + 2000) else yyN
        let tzUpper := tz1.map upperChar
        let tzoffset0 : Option Int :=
          match (pyTimezones.find? (·.1 = strOf tzUpper)).map (·.2) with
          | some v => some v
          | none =>
            match pyInt? tzUpper with
            | some v => if v = 0 ∧ tzUpper.head? = some '-' then none else some v
            | none => none
        let tzoffsetSec : Option Int :=
          tzoffset0.map fun t =>
            if t = 0 then 0
            else
              let sign : Int := if t < 0 then -1 else 1
              let tAbs := if t < 0 then -t else t
              sign * ((tAbs / 100) * 3600 + (tAbs % 100) * 60)
        some (yyN, mmN, ddN, thhN, tmmN, tssN, tzoffsetSec)
      | _, _, _, _, _ => none
  | _ => none

/-- `email.utils.parsedate_to_datetime`, composed with the `except
(TypeError, ValueError)` of its caller `_to_iso8601`: an unparseable date,
an out-of-range civil field (`datetime(...)` raises) or an out-of-range
offset (`timezone(timedelta(...))` raises) all yield `none`. -/
def parsedate_to_datetime (s : List Char) : Option PyDateTime :=
  match parsedate_tz s with
  | none => none
  | some (yy, mm, dd, hh, mi, ss, tzoff) =>
    if 0 ≤ dd ∧ 0 ≤ hh ∧ 0 ≤ mi ∧ 0 ≤ ss
        ∧ validCivil yy mm dd.toNat hh.toNat mi.toNat ss.toNat then
      match tzoff with
      | none => some ⟨yy, mm, dd.toNat, hh.toNat, mi.toNat, ss.toNat, none⟩
      | some off =>
        if -86400 < off ∧ off < 86400 then
          some ⟨yy, mm, dd.toNat, hh.toNat, mi.toNat, ss.toNat, some off⟩
        else none
    else none

/-! ## `app/ingestion/rss.py`: feed reader -/

/-- A `time.struct_time` as set by feedparser (first six fields). -/
structure Dt6 where
  year : Nat
  month : Nat
  day : Nat
  hour : Nat
  minute : Nat
  second : Nat
deriving DecidableEq, Repr

/-- One feedparser entry, restricted to the attributes `parse_rss_feed`
reads (`getattr(entry, ..., None)` for each). -/
structure FeedEntry where
  title : Option String
  link : Option String
  published_parsed : Option Dt6
  updated_parsed : Option Dt6
  published : Option String
  updated : Option String
deriving DecidableEq, Repr

/-- Python truthiness of an optional string attribute: missing (`None`) and
empty are falsy. -/
def truthyStr : Option String → Bool
  | none => false
  | some s => ¬s.isEmpty

/-- `datetime(*t[:6], tzinfo=UTC).isoformat().replace("+00:00", "Z")`;
`none` models the `ValueError` raised on an out-of-range struct time. -/
def structTimeToIso (t : Dt6) : Option String :=
  if validCivil t.year t.month t.day t.hour t.minute t.second then
    some (isoZ t.year t.month t.day t.hour t.minute t.second)
  else none

/-- `_to_iso8601` from `app/ingestion/rss.py`.  `Except.error` models a
`ValueError` escaping (only possible from the struct-time branches, whose
`datetime(...)` call is outside the `try`); `.ok none` is Python `None`. -/
def _to_iso8601 (e : FeedEntry) : Except Unit (Option String) :=
  match e.published_parsed with
  | some t =>
    match structTimeToIso t with
    | some s => .ok (some s)
    | none => .error ()
  | none =>
    match e.updated_parsed with
    | some t =>
      match structTimeToIso t with
      | some s => .ok (some s)
      | none => .error ()
    | none =>
      let text := if truthyStr e.published then e.published
        else if truthyStr e.updated then e.updated else none
      match text with
      | none => .ok none
      | some s =>
        match parsedate_to_datetime (chars s) with
        | none => .ok none
        | some dt =>
          let u := toUtc dt
          .ok (some (isoZ u.year u.month u.day u.hour u.minute u.second))

/-! ### SHA-1 (for the derived article identifier) -/

/-- 32-bit left rotation. -/
def rotl32 (n x : Nat) : Nat :=
  ((x <<< n) % 4294967296) ||| (x >>> (32 - n))

/-- SHA-1 message padding (input and output are byte values). -/
def sha1Pad (msg : List Nat) : List Nat :=
  let len := msg.length
  let bitLen := len * 8
  let padZeros := (119 - len % 64) % 64
  msg ++ 128 :: List.replicate padZeros 0
    ++ (List.range 8).map fun i => (bitLen >>> (8 * (7 - i))) % 256

/-- Split a byte list into 32-bit big-endian words. -/
def bytesToWords : List Nat → List Nat
  | b0 :: b1 :: b2 :: b3 :: rest =>
    (((b0 * 256 + b1) * 256 + b2) * 256 + b3) :: bytesToWords rest
  | _ => []

/-- SHA-1 message schedule: extend the 16 block words by `n` more. -/
def sha1ExtendAux : Nat → Array Nat → Array Nat
  | 0, w => w
  | n + 1, w =>
    let i := w.size
    let v := rotl32 1 ((((w.getD (i - 3) 0) ^^^ (w.getD (i - 8) 0)) ^^^
      (w.getD (i - 14) 0)) ^^^ (w.getD (i - 16) 0))
    sha1ExtendAux n (w.push v)

/-- One SHA-1 round. -/
def sha1Round (w : Array Nat) (st : Nat × Nat × Nat × Nat × Nat) (i : Nat) :
    Nat × Nat × Nat × Nat × Nat :=
  match st with
  | (a, b, c, d, e) =>
    let (f, k) :=
      if i < 20 then ((b &&& c) ||| ((4294967295 - b) &&& d), 1518500249)
      else if i < 40 then ((b ^^^ c) ^^^ d, 1859775393)
      else if i < 60 then ((b &&& c) ||| (b &&& d) ||| (c &&& d), 2400959708)
      else ((b ^^^ c) ^^^ d, 3395469782)
    let temp := (rotl32 5 a + f + e + k + w.getD i 0) % 4294967296
    (temp, a, rotl32 30 b, c, d)

/-- Process one 512-bit block. -/
def sha1Block (h : Nat × Nat × Nat × Nat × Nat) (block : List Nat) :
    Nat × Nat × Nat × Nat × Nat :=
  match h with
  | (h0, h1, h2, h3, h4) =>
    let w := sha1ExtendAux 64 (List.toArray (bytesToWords block))
    match (List.range 80).foldl (sha1Round w) (h0, h1, h2, h3, h4) with
    | (a, b, c, d, e) =>
      ((h0 + a) % 4294967296, (h1 + b) % 4294967296, (h2 + c) % 4294967296,
       (h3 + d) % 4294967296, (h4 + e) % 4294967296)

/-- Split into 64-byte blocks (fuelled by the list length). -/
def chunk64Aux : Nat → List Nat → List (List Nat)
  | _, [] => []
  | 0, _ :: _ => []
  | fuel + 1, x :: xs => (x :: xs).take 64 :: chunk64Aux fuel ((x :: xs).drop 64)

/-- Split into 64-byte blocks. -/
def chunk64 (l : List Nat) : List (List Nat) :=
  chunk64Aux l.length l

/-- Lowercase hex of one byte-pair of a 32-bit word. -/
def word8Hex (w : Nat) : List Char :=
  (List.range 8).map fun i =>
    let nib := (w >>> (4 * (7 - i))) % 16
    if nib < 10 then Char.ofNat (48 + nib) else Char.ofNat (87 + nib)

/-- `hashlib.sha1(s.encode("utf-8")).hexdigest()`. -/
def sha1Hex (s : String) : String :=
  let init : Nat × Nat × Nat × Nat × Nat :=
    (1732584193, 4023233417, 2562383102, 271733878, 3285377520)
  match (chunk64 (sha1Pad (utf8Bytes (chars s)))).foldl sha1Block init with
  | (h0, h1, h2, h3, h4) =>
    strOf (word8Hex h0 ++ word8Hex h1 ++ word8Hex h2 ++ word8Hex h3 ++ word8Hex h4)

/-- The static source descriptor passed to `parse_rss_feed`. -/
structure SrcRef where
  id : String
  name : String
  url : String
deriving DecidableEq, Repr

/-- One element of the list `parse_rss_feed` returns (the article dict). -/
structure RssItem where
  id : String
  title : String
  category : String
  published_at : String
  summary : String
  source : SrcRef
  original_url : String
deriving DecidableEq, Repr

/-- The outcome of `feedparser.parse(feed_url)` inside its 10-second
default-timeout scope: either the call raised, or it produced a document
object with a `bozo` flag, an optional HTTP `status` and a list of entries. -/
inductive FetchResult where
  | raised
  | doc (bozo : Bool) (status : Option Int) (entries : List FeedEntry)
deriving DecidableEq, Repr

/-- The per-entry body of the loop in `parse_rss_feed`: `.ok none` models
`continue` (entry dropped), `.error` a `ValueError` escaping from
`_to_iso8601` or `_canonicalize_url`. -/
def parseEntry (source : SrcRef) (category : String) (e : FeedEntry) :
    Except Unit (Option RssItem) :=
  match _to_iso8601 e with
  | .error _ => .error ()
  | .ok published_at =>
    if ¬truthyStr e.title ∨ ¬truthyStr e.link ∨ published_at = none then .ok none
    else
      let title := e.title.getD ""
      let link := e.link.getD ""
      match canonicalize_url link with
      | none => .error ()
      | some original_url =>
        let identity_source := if ¬original_url.isEmpty then original_url else title
        let article_id := "art_" ++ strOf ((chars (sha1Hex identity_source)).take 12)
        .ok (some ⟨article_id, title, category, published_at.getD "",
          "Summary pending.", source, original_url⟩)

/-- The entry loop of `parse_rss_feed`, left to right, first exception
aborting. -/
def collectItems (source : SrcRef) (category : String) :
    List FeedEntry → Except Unit (List RssItem)
  | [] => .ok []
  | e :: es => do
    let it? ← parseEntry source category e
    let rest ← collectItems source category es
    match it? with
    | some it => .ok (it :: rest)
    | none => .ok rest

/-- `parse_rss_feed` from `app/ingestion/rss.py`, over a fetch outcome:
a raised fetch is caught and yields `[]`; an HTTP status `≥ 400` yields
`[]`; a `bozo` document is only logged; then each entry is processed. -/
def parse_rss_feed (fetch : FetchResult) (source : SrcRef) (category : String) :
    Except Unit (List RssItem) :=
  match fetch with
  | .raised => .ok []
  | .doc _bozo status entries =>
    match status with
    | some n => if 400 ≤ n then .ok [] else collectItems source category entries
    | none => collectItems source category entries

/-! ## `app/db/models.py` + migration `9b8f1c2d3e4f`: the relational store

Timestamps (`published_at`, `ingested_at`, cursors) are modelled as integers
ordered like the stored `DATETIME` values; `_datetime_to_iso8601` composed
with `_parse_cursor` is the identity on stored values, so the cursor
round-trip is modelled as the identity. -/

/-- A `sources` row. -/
structure SourceRow where
  id : String
  name : String
  url : String
  rss_url : String
  default_category : String
  active : Bool
deriving DecidableEq, Repr

/-- An `articles` row (`primary_category` is the nullable column added by
migration `9b8f1c2d3e4f`). -/
structure ArticleRow where
  id : String
  canonical_url : String
  source_id : String
  title : String
  category : String
  primary_category : Option String
  published_at : Int
  ingested_at : Int
deriving DecidableEq, Repr

/-- A `summaries` row. -/
structure SummaryRow where
  article_id : String
  summary_text : String
  model : String
  version : Nat
deriving DecidableEq, Repr

/-- The store. -/
structure FeedDB where
  sources : List SourceRow
  articles : List ArticleRow
  summaries : List SummaryRow
deriving DecidableEq, Repr

/-- The inner join on `summaries.article_id == articles.id` used by every
reader. -/
def hasSummary (db : FeedDB) (a : ArticleRow) : Bool :=
  db.summaries.any (·.article_id = a.id)

/-- `db.sources` lookup by primary key. -/
def findSource (db : FeedDB) (sid : String) : Option SourceRow :=
  db.sources.find? (·.id = sid)

/-- `db.summaries` lookup by article id. -/
def findSummary (db : FeedDB) (aid : String) : Option SummaryRow :=
  db.summaries.find? (·.article_id = aid)

/-- Insert into a list kept in descending `published_at` order. -/
def insertByPubDesc (a : ArticleRow) : List ArticleRow → List ArticleRow
  | [] => [a]
  | b :: bs =>
    if b.published_at ≤ a.published_at then a :: b :: bs
    else b :: insertByPubDesc a bs

/-- `ORDER BY published_at DESC` (insertion sort; SQL leaves the relative
order of equal keys backend-defined, so properties proved about ties must
not depend on this choice). -/
def sortByPubDesc (l : List ArticleRow) : List ArticleRow :=
  l.foldr insertByPubDesc []

/-- Insert into a list kept in ascending `id` order. -/
def insertByIdAsc (a : ArticleRow) : List ArticleRow → List ArticleRow
  | [] => [a]
  | b :: bs =>
    if pyStrLe (chars a.id) (chars b.id) then a :: b :: bs
    else b :: insertByIdAsc a bs

/-- `ORDER BY id ASC`. -/
def sortByIdAsc (l : List ArticleRow) : List ArticleRow :=
  l.foldr insertByIdAsc []

/-! ## `app/main.py`: feed query service -/

/-- One element of a `/v1/feed` response (`_article_to_response_item`).
`published_at` is the article timestamp (serialized by
`_datetime_to_iso8601`, modelled as the identity); `summary` / `source` are
the joined rows, present whenever the store has referential integrity. -/
structure FeedItem where
  id : String
  title : String
  category : String
  published_at : Int
  summary : Option String
  source : Option SrcRef
  original_url : String
deriving DecidableEq, Repr

/-- A `/v1/feed` response page. -/
structure FeedPage where
  items : List FeedItem
  next_cursor : Option Int
deriving DecidableEq, Repr

/-- `_article_to_response_item`. -/
def articleToItem (db : FeedDB) (a : ArticleRow) : FeedItem :=
  ⟨a.id, a.title, a.category, a.published_at,
   (findSummary db a.id).map (·.summary_text),
   (findSource db a.source_id).map (fun s => ⟨s.id, s.name, s.url⟩),
   a.canonical_url⟩

/-- The `sources` query-parameter handling at the top of `get_feed`
(lines 319–333): `None` means no filter; note that `if sources:` is false
for the empty string, so `sources=""` also means no filter.  A non-empty
parameter is split on commas, stripped, blanks dropped; the result is the
set of requested ids that belong to currently-active sources. -/
def requestedSourceIds (s : String) : List String :=
  ((splitOnChar ',' (chars s)).map fun v => strOf (pyStrip v)).filter (· ≠ "")

/-- The active-source filter applied to the requested ids (see the doc
comment on `requestedSourceIds` for the whole parameter handling). -/
def parseSourcesParam (db : FeedDB) (sources : Option String) : Option (List String) :=
  match sources with
  | none => none
  | some s =>
    if s.isEmpty then none
    else
      let requested := requestedSourceIds s
      if ¬requested.isEmpty then
        some ((db.sources.filter fun r => r.active ∧ r.id ∈ requested).map (·.id))
      else some []

/-- `get_feed` from `app/main.py` (`GET /v1/feed`): articles joined with
summaries, optionally source-filtered, keyset-filtered by
`published_at < cursor`, ordered newest first, fetching `limit+1` rows to
detect a next page. -/
def get_feed (db : FeedDB) (limit : Nat) (cursor : Option Int)
    (sources : Option String) : FeedPage :=
  let source_ids := parseSourcesParam db sources
  if source_ids = some [] then ⟨[], none⟩
  else
    let base := db.articles.filter fun a => hasSummary db a
    let base :=
      match source_ids with
      | some ids => base.filter fun a => a.source_id ∈ ids
      | none => base
    let base :=
      match cursor with
      | some c => base.filter fun a => a.published_at < c
      | none => base
    let fetched := (sortByPubDesc base).take (limit + 1)
    let page := fetched.take limit
    let next :=
      if limit < fetched.length ∧ ¬page.isEmpty then
        (page.getLast?).map (·.published_at)
      else none
    ⟨page.map (articleToItem db), next⟩

/-- The keyset condition `published_at < cursor` applied to a row list (the
`where` clause added at lines 347–349 when a cursor is present). -/
def applyCursor (cur : Option Int) (l : List ArticleRow) : List ArticleRow :=
  match cur with
  | none => l
  | some c => l.filter fun a => a.published_at < c

/-- The paging client: request `/v1/feed`, follow each `next_cursor`,
concatenate the pages (with a fuel bound on the number of requests). -/
def collectFeed (db : FeedDB) (limit : Nat) : Nat → Option Int → List FeedItem
  | 0, _ => []
  | fuel + 1, cur =>
    let p := get_feed db limit cur none
    p.items ++
      (match p.next_cursor with
       | none => []
       | some c => collectFeed db limit fuel (some c))

/-- A `/v1/articles/{id}` response (`_article_to_detail_response_item`). -/
structure DetailItem where
  id : String
  title : String
  summary : Option String
  category : String
  published_at : Int
  original_url : String
  source_name : Option String
  source_url : Option String
deriving DecidableEq, Repr

/-- `get_article_by_id` from `app/main.py` (`GET /v1/articles/{id}`): the
query inner-joins `summaries`, so the row is found only when a Summary
exists; otherwise `HTTPException(404)`. -/
def get_article_by_id (db : FeedDB) (id : String) : Except Nat DetailItem :=
  match db.articles.find? (fun a => a.id = id ∧ hasSummary db a) with
  | some a =>
    .ok ⟨a.id, a.title, (findSummary db a.id).map (·.summary_text), a.category,
      a.published_at, a.canonical_url, (findSource db a.source_id).map (·.name),
      (findSource db a.source_id).map (·.url)⟩
  | none => .error 404

/-! ## `app/main.py`: ingestion coordinator `_persist_sources_and_articles`

Two models share the per-article logic of lines 263–296:

* `persistRun` — one sequential run of the whole function over a source
  configuration, with a per-article injected non-`IntegrityError` commit
  failure (`commit_fails`), for the failure-isolation claim;
* `runStep` / `execSched` — a small-step two-run interleaving machine over
  the article loop, where the existence check (lines 265–269) and the
  insert-commit (lines 281–294) are separate atomic store operations, for
  the concurrent-deduplication claim.

`_create_summary_if_missing` (line 296) writes only the `summaries` table
and catches every exception internally, so it affects neither the article
rows nor control flow and is omitted from both models.  `ingested_at`
(`datetime.now`) is not observed by any claim and is modelled as `0`. -/

/-- One parsed article as handed to the persistence loop (the fields of the
`parse_rss_feed` item dict that lines 263–296 read, with `published_at`
already parsed to a timestamp), plus the injected commit outcome
(`commit_fails = true` models `db.commit()` raising something other than
`IntegrityError` for this row). -/
structure CandArticle where
  id : String
  title : String
  category : String
  published_at : Int
  original_url : String
  source_id : String
  commit_fails : Bool
deriving DecidableEq, Repr

/-- `SELECT ... WHERE articles.canonical_url == u` non-emptiness. -/
def urlExists (db : List ArticleRow) (u : String) : Bool :=
  db.any (·.canonical_url = u)

/-- The `DBArticle(...)` constructed at lines 271–279. -/
def mkArticleRow (c : CandArticle) (cu : String) (srcId : String) : ArticleRow :=
  ⟨c.id, cu, srcId, c.title, c.category, none, c.published_at, 0⟩

/-- One ingestion run's private state inside the article loop: the
candidates not yet examined, an insert staged between the existence check
and its commit, and whether an exception has escaped the run (the outer
`except Exception ... raise` of lines 297–299). -/
structure RunState where
  remaining : List CandArticle
  pending : Option (CandArticle × ArticleRow)
  crashed : Bool
deriving DecidableEq, Repr

/-- The run has processed every candidate. -/
def runDone (r : RunState) : Bool :=
  r.remaining.isEmpty && r.pending.isNone

/-- One atomic store operation of one run.  With an insert staged, commit
it: a canonical-URL conflict is the `IntegrityError` path of lines 284–291
(rollback, re-query, skip when found, re-raise when not); an injected
failure is the `except Exception` path of lines 292–294 (rollback, raise).
Otherwise examine the next candidate: canonicalize (line 264; a `ValueError`
escapes the run) and run the existence check of lines 265–269, skipping or
staging the insert. -/
def runStep (db : List ArticleRow) (r : RunState) : List ArticleRow × RunState :=
  if r.crashed then (db, r)
  else
    match r.pending with
    | some (c, row) =>
      if urlExists db row.canonical_url then
        if urlExists db row.canonical_url then (db, { r with pending := none })
        else (db, { r with pending := none, crashed := true })
      else if c.commit_fails then (db, { r with pending := none, crashed := true })
      else (db ++ [row], { r with pending := none })
    | none =>
      match r.remaining with
      | [] => (db, r)
      | c :: rest =>
        match canonicalize_url c.original_url with
        | none => (db, { r with crashed := true })
        | some cu =>
          if urlExists db cu then (db, { r with remaining := rest })
          else
            (db,
             { r with
               remaining := rest
               pending := some (c, mkArticleRow c cu c.source_id) })

/-- Two concurrent ingestion runs over one store. -/
structure IngestState where
  db : List ArticleRow
  runA : RunState
  runB : RunState
deriving DecidableEq, Repr

/-- Advance the chosen run by one store operation. -/
def stepChoice (s : IngestState) (pick : Bool) : IngestState :=
  if pick then
    match runStep s.db s.runA with
    | (db', a') => ⟨db', a', s.runB⟩
  else
    match runStep s.db s.runB with
    | (db', b') => ⟨db', s.runA, b'⟩

/-- Execute an interleaving schedule (`true` = run A moves). -/
def execSched (sched : List Bool) (s : IngestState) : IngestState :=
  sched.foldl stepChoice s

/-- Two fresh runs over an empty article table. -/
def initIngest (candsA candsB : List CandArticle) : IngestState :=
  ⟨[], ⟨candsA, none, false⟩, ⟨candsB, none, false⟩⟩

/-- One configured source as `_persist_sources_and_articles` sees it: the
`SOURCES` entry plus the outcome of `parse_rss_feed` for its feed
(`Except.error` models the `except Exception ... continue` of lines
257–261). -/
structure SourceCfg where
  id : String
  name : String
  url : String
  rss_url : String
  category : String
  active : Bool
  fetch : Except Unit (List CandArticle)
deriving Repr

/-- Result of one sequential ingestion run: the two tables and whether an
exception propagated out of the function. -/
structure PersistResult where
  sourcesTable : List SourceRow
  db : List ArticleRow
  error : Bool
deriving DecidableEq, Repr

/-- Lines 263–294 for one candidate of a sequential run; `true` means an
exception propagates (canonicalize `ValueError`, the unreachable re-raise
after an `IntegrityError` whose re-query finds nothing, or the injected
non-`IntegrityError` commit failure, rolled back first). -/
def persistArticle (srcId : String) (db : List ArticleRow) (c : CandArticle) :
    List ArticleRow × Bool :=
  match canonicalize_url c.original_url with
  | none => (db, true)
  | some cu =>
    if urlExists db cu then (db, false)
    else
      if urlExists db cu then
        (if urlExists db cu then (db, false) else (db, true))
      else if c.commit_fails then (db, true)
      else (db ++ [mkArticleRow c cu srcId], false)

/-- The article loop of one source, aborting at the first propagated
exception. -/
def persistArticles (srcId : String) (db : List ArticleRow) :
    List CandArticle → List ArticleRow × Bool
  | [] => (db, false)
  | c :: cs =>
    match persistArticle srcId db c with
    | (db', true) => (db', true)
    | (db', false) => persistArticles srcId db' cs

/-- Lines 234–296 for one source: skip inactive sources, ensure the source
row (insert when absent, never update), run the feed reader (a raised fetch
is caught and the source skipped), then persist its articles. -/
def persistSource (tbl : List SourceRow) (db : List ArticleRow) (s : SourceCfg) :
    (List SourceRow × List ArticleRow) × Bool :=
  if ¬s.active then ((tbl, db), false)
  else
    let tbl' :=
      if tbl.any (·.id = s.id) then tbl
      else tbl ++ [⟨s.id, s.name, s.url, s.rss_url, s.category, s.active⟩]
    match s.fetch with
    | .error _ => ((tbl', db), false)
    | .ok cands =>
      match persistArticles s.id db cands with
      | (db', aborted) => ((tbl', db'), aborted)

/-- The source loop; an exception propagating from any source aborts the
whole run (the outer `except Exception ... raise` of lines 297–299). -/
def persistLoop (tbl : List SourceRow) (db : List ArticleRow) :
    List SourceCfg → PersistResult
  | [] => ⟨tbl, db, false⟩
  | s :: rest =>
    match persistSource tbl db s with
    | ((tbl', db'), true) => ⟨tbl', db', true⟩
    | ((tbl', db'), false) => persistLoop tbl' db' rest

/-- `_persist_sources_and_articles` over a source configuration, starting
from an empty store. -/
def persistRun (cfgs : List SourceCfg) : PersistResult :=
  persistLoop [] [] cfgs

/-! ## `scripts/backfill_primary_categories.py` -/

/-- `FALLBACK_CATEGORY`. -/
def FALLBACK_CATEGORY : String := "uncategorized"

/-- `ALLOWED_CATEGORIES` (also `VALID_CATEGORIES` in `app/main.py`). -/
def ALLOWED_CATEGORIES : List String :=
  ["models", "research", "products", "open_source", "hardware", "regulation"]

/-- `_normalize_category`: falsy input or a trimmed-lowercased value outside
the allowed set becomes the fallback. -/
def _normalize_category (v : Option String) : String :=
  match v with
  | none => FALLBACK_CATEGORY
  | some s =>
    if s.isEmpty then FALLBACK_CATEGORY
    else
      let normalized := strOf ((pyStrip (chars s)).map lowerChar)
      if ALLOWED_CATEGORIES.contains normalized then normalized
      else FALLBACK_CATEGORY

/-- The observable outcome of one article's external classification call:
the `OPENAI_API_KEY` check, the `OpenAI(...)` constructor (outside the
`try`, so its exception escapes `classify_article`), the guarded chat call,
and the shape of the completion. -/
inductive ClassifyOutcome where
  | noApiKey
  | ctorRaises
  | callRaises
  | noChoices
  | noContent
  | content (s : String)
deriving DecidableEq, Repr

/-- `classify_article`, as a function of the call outcome: every path
returns a label except the constructor raising. -/
def classify_article (o : ClassifyOutcome) : Except Unit String :=
  match o with
  | .noApiKey => .ok FALLBACK_CATEGORY
  | .ctorRaises => .error ()
  | .callRaises => .ok FALLBACK_CATEGORY
  | .noChoices => .ok FALLBACK_CATEGORY
  | .noContent => .ok FALLBACK_CATEGORY
  | .content s => .ok (_normalize_category (some s))

/-- The label an article ends up with when the backfill processes it with
call outcome `o` (the `try`/`except` of lines 149–177 with commits
succeeding): the classifier's label, or the fallback when the call raised. -/
def assignedCategory (o : ClassifyOutcome) : String :=
  match classify_article o with
  | .ok v => v
  | .error _ => FALLBACK_CATEGORY

/-- The selection predicate of `count_missing_primary_categories` and
`fetch_batch`: has a Summary, `primary_category IS NULL`. -/
def missingPrimary (db : FeedDB) (a : ArticleRow) : Bool :=
  hasSummary db a && a.primary_category.isNone

/-- `fetch_batch`: missing-predicate rows, `id > last_id` when resuming,
ascending id, first `batch_size`. -/
def fetch_batch (db : FeedDB) (batch_size : Nat) (last_id : Option String) :
    List ArticleRow :=
  let base := db.articles.filter fun a =>
    missingPrimary db a &&
      (match last_id with | some lid => pyStrLt (chars lid) (chars a.id) | none => true)
  (sortByIdAsc base).take batch_size

/-- `UPDATE articles SET primary_category = v WHERE id = aid` (the ORM
mutation plus commit at lines 163–165 / 170–173). -/
def setPrimaryCategory (db : FeedDB) (aid : String) (v : String) : FeedDB :=
  { db with
    articles := db.articles.map fun a =>
      if a.id = aid then { a with primary_category := some v } else a }

/-- The mutable state of `backfill`; `log` records the `print(f"{id} ->
{assigned}")` lines, i.e. which articles the pass processed and what it
persisted for them. -/
structure BState where
  db : FeedDB
  processed : Nat
  fallback_count : Nat
  last_id : Option String
  log : List (String × String)
deriving DecidableEq, Repr

/-- The `for article in batch` body of `backfill` (lines 142–177), with
database commits succeeding: count and remember the row, re-check the
missing predicate against current state, classify, persist the label (the
fallback when the call raised — lines 167–174). -/
def backfillForLoop (env : String → ClassifyOutcome) (target_total : Nat) :
    List ArticleRow → BState → BState
  | [], st => st
  | a :: rest, st =>
    if target_total ≤ st.processed then st
    else
      let st1 : BState := { st with processed := st.processed + 1, last_id := some a.id }
      let cur := (st1.db.articles.find? (·.id = a.id)).getD a
      if cur.primary_category.isSome then backfillForLoop env target_total rest st1
      else
        match classify_article (env a.id) with
        | .ok assigned =>
          backfillForLoop env target_total rest
            { st1 with
              db := setPrimaryCategory st1.db a.id assigned
              fallback_count :=
                st1.fallback_count + (if assigned = FALLBACK_CATEGORY then 1 else 0)
              log := st1.log ++ [(a.id, assigned)] }
        | .error _ =>
          backfillForLoop env target_total rest
            { st1 with
              db := setPrimaryCategory st1.db a.id FALLBACK_CATEGORY
              fallback_count := st1.fallback_count + 1
              log := st1.log ++ [(a.id, FALLBACK_CATEGORY)] }

/-- The `while processed < target_total` loop of `backfill`, with fuel (the
caller passes enough: each iteration with a non-empty batch strictly
increases `processed`). -/
def backfillWhile (env : String → ClassifyOutcome) (batch_size target_total : Nat) :
    Nat → BState → BState
  | 0, st => st
  | fuel + 1, st =>
    if st.processed < target_total then
      let remaining := target_total - st.processed
      let batch := fetch_batch st.db (min batch_size remaining) st.last_id
      if batch.isEmpty then st
      else backfillWhile env batch_size target_total fuel
        (backfillForLoop env target_total batch st)
    else st

/-- `backfill(batch_size, limit)` from
`scripts/backfill_primary_categories.py`, over a store and the
classification-call outcomes. -/
def backfill (env : String → ClassifyOutcome) (batch_size : Nat)
    (limit : Option Nat) (db : FeedDB) : BState :=
  let total_missing := (db.articles.filter (missingPrimary db)).length
  if total_missing = 0 then ⟨db, 0, 0, none, []⟩
  else
    let target_total :=
      match limit with
      | none => total_missing
      | some l => min total_missing l
    backfillWhile env batch_size target_total (target_total + 1) ⟨db, 0, 0, none, []⟩

/-! # Theorems

One theorem per claim (`C1`–`C10`), with counterexamples for the claims the
code refutes, and shared helper lemmas. -/

/-! ## C6 — fetch-level failure handling of the feed reader -/

/-- The entry used by the C6 counterexample: a complete, well-formed entry. -/
def c6entry : FeedEntry :=
  ⟨some "A", some "https://s.com/p", some ⟨2023, 1, 2, 10, 0, 0⟩, none, none, none⟩

/-- The store used by the C4 counterexample: one active source, one
summarized article. -/
def c4db : FeedDB :=
  ⟨[⟨"s1", "S1", "u1", "r1", "models", true⟩],
   [⟨"a1", "https://x.com/1", "s1", "T", "models", none, 5, 0⟩],
   [⟨"a1", "text", "m", 1⟩]⟩

/-- The store used by the C3 counterexample: the article exists (with its
source) but has no Summary row. -/
def c3db : FeedDB :=
  ⟨[⟨"s1", "S1", "u1", "r1", "models", true⟩],
   [⟨"a1", "https://x.com/1", "s1", "T", "models", none, 5, 0⟩],
   []⟩

/-- C5 counterexample, failing source: its one article's insert commit
raises a non-`IntegrityError`. -/
def c5srcFail : SourceCfg :=
  ⟨"s1", "S1", "u1", "r1", "models", true,
   .ok [⟨"a1", "T", "models", 5, "https://x.com/1", "s1", true⟩]⟩

/-- C5 counterexample, healthy source listed after the failing one. -/
def c5srcOk : SourceCfg :=
  ⟨"s2", "S2", "u2", "r2", "models", true,
   .ok [⟨"b1", "T", "models", 5, "https://x.com/2", "s2", false⟩]⟩

/-- C9 scenario entry: the documented example. -/
def c9entry : FeedEntry :=
  ⟨some "A", some "https://s.com/p?utm_campaign=x", none, none,
   some "Mon, 02 Jan 2023 10:00:00 GMT", none⟩

/-- C9 scenario: a timezone-aware published string, converted to UTC. -/
def c9aware : FeedEntry :=
  ⟨some "B", some "https://s.com/q", none, none,
   some "Mon, 02 Jan 2023 05:00:00 -0500", none⟩

/-- C9 scenario: entry lacking a title (dropped). -/
def c9noTitle : FeedEntry :=
  ⟨none, some "https://s.com/r", none, none, some "Mon, 02 Jan 2023 10:00:00 GMT", none⟩

/-- C9 scenario: entry with an empty (falsy) link (dropped). -/
def c9noLink : FeedEntry :=
  ⟨some "C", some "", some ⟨2023, 1, 2, 10, 0, 0⟩, none, none, none⟩

/-- C9 scenario: entry with no resolvable timestamp (dropped). -/
def c9noDate : FeedEntry :=
  ⟨some "D", some "https://s.com/s", none, none, some "not a date", none⟩

/-- The backfill loop invariant: every logged `(id, label)` pair records the
classifier-derived label for that id, and every store row with that id
carries it as `primary_category`. -/
def BInv (env : String → ClassifyOutcome) (st : BState) : Prop :=
  ∀ p ∈ st.log, p.2 = assignedCategory (env p.1) ∧
    ∀ a ∈ st.db.articles, a.id = p.1 → a.primary_category = some p.2

/-- The store used by the C2 counterexample: two summarized articles sharing
one published timestamp. -/
def c2db : FeedDB :=
  ⟨[⟨"s1", "S1", "u1", "r1", "models", true⟩],
   [⟨"a", "https://x.com/a", "s1", "T", "models", none, 5, 0⟩,
    ⟨"b", "https://x.com/b", "s1", "T", "models", none, 5, 0⟩],
   [⟨"a", "t", "m", 1⟩, ⟨"b", "t", "m", 1⟩]⟩

/-- The store used by the C2 witness: two summarized articles with distinct
timestamps. -/
def c2wdb : FeedDB :=
  ⟨[⟨"s1", "S1", "u1", "r1", "models", true⟩],
   [⟨"a", "https://x.com/a", "s1", "T", "models", none, 3, 0⟩,
    ⟨"b", "https://x.com/b", "s1", "T", "models", none, 5, 0⟩],
   [⟨"a", "t", "m", 1⟩, ⟨"b", "t", "m", 1⟩]⟩

/-- The canonical URLs stored in the article table. -/
def dbUrls (db : List ArticleRow) : List String := db.map (·.canonical_url)

/-- The canonical URLs a run still owes to the store: its unexamined
candidates (canonicalized) plus a staged insert. -/
def runObligation (r : RunState) : List String :=
  r.remaining.filterMap (fun c => canonicalize_url c.original_url) ++
    (match r.pending with
     | some p => [p.2.canonical_url]
     | none => [])

/-- A run whose candidates canonicalize without error and carry no injected
commit failure, and which has not crashed. -/
def RunOk (r : RunState) : Prop :=
  (∀ c ∈ r.remaining, (canonicalize_url c.original_url).isSome ∧ c.commit_fails = false)
  ∧ (∀ p, r.pending = some p → p.1.commit_fails = false)
  ∧ r.crashed = false

/-- The two-run invariant: stored canonical URLs are pairwise distinct, and
stored-plus-owed URLs form exactly the fixed target set. -/
def IngestInv (target : Finset String) (s : IngestState) : Prop :=
  (dbUrls s.db).Nodup
  ∧ ((dbUrls s.db).toFinset ∪ (runObligation s.runA).toFinset
      ∪ (runObligation s.runB).toFinset) = target
  ∧ RunOk s.runA ∧ RunOk s.runB

/-- C1 witness, run A's candidate: same article as run B behind a tracking
parameter. -/
def c1candA : CandArticle := ⟨"a1", "T", "models", 5, "https://x.com/p?utm_a=1", "s1", false⟩

/-- C1 witness, run B's candidate. -/
def c1candB : CandArticle := ⟨"b1", "T", "models", 5, "https://x.com/p", "s2", false⟩

set_option maxRecDepth 16384 in
/-- C6, counterexample: a malformed document (`bozo = true`) whose entries
were still recovered does **not** yield an empty sequence — the bozo flag is
only logged and parsing continues, so the claim "a malformed document ...
returns an empty sequence of candidate articles" is false. -/
theorem parse_rss_feed_bozo_not_empty :
    parse_rss_feed (.doc true (some 200) [c6entry]) ⟨"s", "S", "u"⟩ "models"
      = .ok [⟨"art_a6f6467b89e0", "A", "models", "2023-01-02T10:00:00Z",
          "Summary pending.", ⟨"s", "S", "u"⟩, "https://s.com/p"⟩]
  ∧ parse_rss_feed (.doc true (some 200) [c6entry]) ⟨"s", "S", "u"⟩ "models"
      ≠ .ok [] := by
  constructor
  · decide
  · decide

/-- C6, amended: the Feed Reader never raises on a fetch-level failure; a
raised fetch (network error) and a non-success HTTP status (`≥ 400`) yield
the empty sequence, while a malformed document (`bozo`) is logged and does
not change the result — parsing continues with whatever entries were
recovered, so the result is empty only when no entry survives. -/
theorem parse_rss_feed_fetch_failures (src : SrcRef) (cat : String) :
    parse_rss_feed .raised src cat = .ok []
  ∧ (∀ (bozo : Bool) (status : Option Int) (entries : List FeedEntry) (n : Int),
      status = some n → 400 ≤ n →
      parse_rss_feed (.doc bozo status entries) src cat = .ok [])
  ∧ (∀ (b1 b2 : Bool) (status : Option Int) (entries : List FeedEntry),
      parse_rss_feed (.doc b1 status entries) src cat
        = parse_rss_feed (.doc b2 status entries) src cat) := by
  refine ⟨rfl, ?_, ?_⟩
  · rintro bozo status entries n rfl h400
    simp only [parse_rss_feed]
    rw [if_pos h400]
  · intro b1 b2 status entries
    rfl

/-- C6 witness: the amended theorem at a concrete broken feed. -/
theorem parse_rss_feed_fetch_failures_witness :
    parse_rss_feed (.doc false (some 404) [c6entry]) ⟨"s", "S", "u"⟩ "models"
      = .ok [] :=
  (parse_rss_feed_fetch_failures ⟨"s", "S", "u"⟩ "models").2.1 false (some 404)
    [c6entry] 404 rfl (by decide)

/-! ## C4 — empty / filtered-out `sources` parameter -/

/-- C4, counterexample: `sources=""` does **not** return an empty page — the
Python truthiness test `if sources:` treats the empty string like an omitted
parameter, so the unfiltered feed is returned. -/
theorem get_feed_empty_sources_cex :
    (get_feed c4db 20 none (some "")).items ≠ []
  ∧ get_feed c4db 20 none (some "") = get_feed c4db 20 none none := by
  constructor
  · decide
  · decide

/-- C4, amended: `sources=""` is treated exactly like an omitted parameter
(unfiltered feed); a **non-empty** `sources` value whose comma-split,
stripped id set is empty or contains no currently-active source id yields
`\x7bitems: [], next_cursor: null\x7d`, not an error and not the unfiltered
feed. -/
theorem get_feed_filtered_out_sources (db : FeedDB) (limit : Nat)
    (cursor : Option Int) (s : String) (hne : s ≠ "")
    (hnone : ∀ r ∈ db.sources, r.active = true → r.id ∉ requestedSourceIds s) :
    get_feed db limit cursor (some s) = ⟨[], none⟩
  ∧ (∀ (l : Nat) (c : Option Int), get_feed db l c (some "") = get_feed db l c none) := by
  constructor
  · have hsome : parseSourcesParam db (some s) = some [] := by
      simp only [parseSourcesParam]
      rw [if_neg (by simpa [String.isEmpty_iff] using hne)]
      by_cases hreq : (requestedSourceIds s).isEmpty
      · simp [hreq]
      · rw [if_pos (by simpa using hreq)]
        have : db.sources.filter (fun r => decide (r.active = true ∧ r.id ∈ requestedSourceIds s)) = [] := by
          rw [List.filter_eq_nil_iff]
          intro r hr
          simp only [decide_eq_true_eq, not_and]
          intro ha
          exact hnone r hr ha
        simp only [this]
        rfl
    simp only [get_feed, hsome]
    rfl
  · intro l c
    rfl

/-- C4 witness: the amended theorem at a concrete store and a `sources`
value naming only an unknown source id. -/
theorem get_feed_filtered_out_sources_witness :
    get_feed c4db 20 none (some "zz, ") = ⟨[], none⟩ :=
  (get_feed_filtered_out_sources c4db 20 none "zz, " (by decide) (by decide)).1

/-! ## C3 — detail lookup and the Summary join -/

/-- C3, counterexample: `GET /v1/articles/a1` answers 404 even though an
Article with id `a1` exists — the query inner-joins `summaries`, so the
claim "404 only when no Article with that identifier exists" and "whether
or not a Summary row exists" is false. -/
theorem get_article_by_id_join_cex :
    (c3db.articles.map (·.id)) = ["a1"]
  ∧ get_article_by_id c3db "a1" = .error 404 := by
  constructor
  · decide
  · decide

/-- C3, amended: detail lookup succeeds exactly when an Article with the
identifier exists **and** has a Summary row (the join is required); it then
returns that article's attributes; when every article with the identifier
lacks a Summary (in particular when the article simply does not exist) the
endpoint answers 404. -/
theorem get_article_by_id_spec (db : FeedDB) (id : String) :
    ((∃ a ∈ db.articles, a.id = id ∧ hasSummary db a = true) ↔
      ∃ d, get_article_by_id db id = .ok d)
  ∧ (∀ d, get_article_by_id db id = .ok d →
      ∃ a ∈ db.articles, a.id = id ∧ hasSummary db a = true ∧ d.id = a.id
        ∧ d.title = a.title ∧ d.category = a.category
        ∧ d.published_at = a.published_at ∧ d.original_url = a.canonical_url
        ∧ d.summary = (findSummary db a.id).map (·.summary_text))
  ∧ ((∀ a ∈ db.articles, a.id = id → hasSummary db a = false) →
      get_article_by_id db id = .error 404) := by
  refine ⟨⟨?_, ?_⟩, ?_, ?_⟩
  · rintro ⟨a, ha, hid, hs⟩
    have hsome : (db.articles.find? fun a => a.id = id ∧ hasSummary db a).isSome := by
      rw [List.find?_isSome]
      exact ⟨a, ha, by simp [hid, hs]⟩
    obtain ⟨b, hb⟩ := Option.isSome_iff_exists.mp hsome
    have hval : get_article_by_id db id =
        .ok ⟨b.id, b.title, (findSummary db b.id).map (·.summary_text), b.category,
          b.published_at, b.canonical_url, (findSource db b.source_id).map (·.name),
          (findSource db b.source_id).map (·.url)⟩ := by
      simp only [get_article_by_id, hb]
    exact ⟨_, hval⟩
  · rintro ⟨d, hd⟩
    simp only [get_article_by_id] at hd
    cases hfind : db.articles.find? fun a => a.id = id ∧ hasSummary db a with
    | none => rw [hfind] at hd; exact absurd hd (by simp)
    | some b =>
      have hmem := List.mem_of_find?_eq_some hfind
      have hprop := List.find?_some hfind
      simp only [decide_eq_true_eq] at hprop
      exact ⟨b, hmem, hprop.1, hprop.2⟩
  · intro d hd
    simp only [get_article_by_id] at hd
    cases hfind : db.articles.find? fun a => a.id = id ∧ hasSummary db a with
    | none => rw [hfind] at hd; exact absurd hd (by simp)
    | some b =>
      rw [hfind] at hd
      have hmem := List.mem_of_find?_eq_some hfind
      have hprop := List.find?_some hfind
      simp only [decide_eq_true_eq] at hprop
      refine ⟨b, hmem, hprop.1, hprop.2, ?_⟩
      have : d = ⟨b.id, b.title, (findSummary db b.id).map (·.summary_text), b.category,
          b.published_at, b.canonical_url, (findSource db b.source_id).map (·.name),
          (findSource db b.source_id).map (·.url)⟩ := by
        exact (Except.ok.inj hd).symm
      simp [this]
  · intro hnone
    simp only [get_article_by_id]
    have : db.articles.find? (fun a => a.id = id ∧ hasSummary db a) = none := by
      rw [List.find?_eq_none]
      intro a ha
      simp only [decide_eq_true_eq, not_and]
      intro hid
      rw [hnone a ha hid]
      simp
    rw [this]

/-- C3 witness: the amended theorem's 404 direction at a concrete store
whose only matching article lacks a Summary. -/
theorem get_article_by_id_spec_witness :
    get_article_by_id c3db "a1" = .error 404 :=
  (get_article_by_id_spec c3db "a1").2.2 (by decide)

/-! ## C5 — isolation of non-uniqueness persistence failures -/

/-- C5, counterexample: with the failing source listed first, the run
propagates the error and source `s2` is never attempted — its source row is
never ensured and its article is never persisted (swapping the order shows
`s2`'s article does persist when it is reached), refuting "must not prevent
the remaining configured active sources from being attempted". -/
theorem persist_failure_not_isolated_cex :
    (persistRun [c5srcFail, c5srcOk]).error = true
  ∧ (persistRun [c5srcFail, c5srcOk]).sourcesTable.map (·.id) = ["s1"]
  ∧ (persistRun [c5srcFail, c5srcOk]).db = []
  ∧ (persistRun [c5srcOk, c5srcFail]).db.map (·.id) = ["b1"] := by
  refine ⟨?_, ?_, ?_, ?_⟩ <;> decide

/-- C5, amended: a persistence failure on inserting one article that is not
a uniqueness conflict is rolled back (the article row is not persisted) and
propagates to the caller, aborting the **entire** run: once a prefix of the
source list has errored, appending further sources changes nothing — no
later source is attempted.  (Only fetch/parse failures are isolated per
source.) -/
theorem persist_failure_aborts_run :
    (∀ (tbl : List SourceRow) (db : List ArticleRow) (pre post : List SourceCfg),
       (persistLoop tbl db pre).error = true →
       persistLoop tbl db (pre ++ post) = persistLoop tbl db pre)
  ∧ (∀ (s : SourceCfg) (c : CandArticle) (rest : List CandArticle),
       s.active = true → s.fetch = .ok (c :: rest) → c.commit_fails = true →
       (canonicalize_url c.original_url).isSome →
       (persistRun [s]).error = true ∧ (persistRun [s]).db = []) := by
  constructor
  · intro tbl db pre post
    induction pre generalizing tbl db with
    | nil => intro h; simp [persistLoop] at h
    | cons s pre ih =>
      intro h
      simp only [List.cons_append, persistLoop] at h ⊢
      cases hps : persistSource tbl db s with
      | mk st aborted =>
        obtain ⟨tbl2, db2⟩ := st
        rw [hps] at h
        cases aborted with
        | true => rfl
        | false => exact ih tbl2 db2 h
  · intro s c rest hact hfetch hfail hcanon
    obtain ⟨cu, hcu⟩ := Option.isSome_iff_exists.mp hcanon
    have harticle : persistArticle s.id [] c = ([], true) := by
      simp only [persistArticle, hcu, hfail]
      rfl
    have hsrc : persistSource [] [] s =
        (([⟨s.id, s.name, s.url, s.rss_url, s.category, s.active⟩], []), true) := by
      simp only [persistSource, hact, hfetch]
      simp only [List.any_nil, Bool.false_eq_true, if_neg, persistArticles, harticle]
      rfl
    simp only [persistRun, persistLoop, hsrc]
    exact ⟨trivial, trivial⟩

/-- C5 witness: the amended theorem's abort conjunct at the concrete failing
source. -/
theorem persist_failure_aborts_run_witness :
    (persistRun [c5srcFail]).error = true ∧ (persistRun [c5srcFail]).db = [] :=
  persist_failure_aborts_run.2 c5srcFail
    ⟨"a1", "T", "models", 5, "https://x.com/1", "s1", true⟩ [] rfl rfl rfl (by decide)

/-! ## C7 — canonicalization identifies URLs differing only in tracking noise -/

/-- C7: two parseable URLs with identical scheme, netloc and path whose
queries keep the same pairs after dropping `utm_`-prefixed and denylisted
keys (i.e. that differ only in tracking parameters), with arbitrary
fragments, canonicalize to the same string; the documented example computes
exactly as specified; and the kept pairs are an order-preserving sublist of
the parsed query pairs (remaining parameters keep their original relative
order). -/
theorem canonicalize_tracking_equivalence :
    (∀ (u1 u2 : List Char) (s1 s2 : SplitResult),
      urlsplit u1 = some s1 → urlsplit u2 = some s2 →
      s1.scheme = s2.scheme → s1.netloc = s2.netloc → s1.path = s2.path →
      keptParams s1.query = keptParams s2.query →
      canonicalizeCore u1 = canonicalizeCore u2)
  ∧ canonicalize_url "https://x.com/a?utm_source=x&id=1#frag" = some "https://x.com/a?id=1"
  ∧ canonicalize_url "https://x.com/a?id=1" = some "https://x.com/a?id=1"
  ∧ (∀ q : List Char, (keptParams q).Sublist (parse_qsl q)) := by
  refine ⟨?_, by decide, by decide, ?_⟩
  · intro u1 u2 s1 s2 h1 h2 hs hn hp hq
    simp only [canonicalizeCore, h1, h2, Option.map_some']
    rw [hs, hn, hp, hq]
  · intro q
    simp only [keptParams]
    exact List.filter_sublist _

/-- C7 witness: the general equivalence applied to the two documented
example URLs. -/
theorem canonicalize_tracking_equivalence_witness :
    canonicalizeCore (chars "https://x.com/a?utm_source=x&id=1#frag")
      = canonicalizeCore (chars "https://x.com/a?id=1") :=
  canonicalize_tracking_equivalence.1 _ _
    ⟨chars "https", chars "x.com", chars "/a", chars "utm_source=x&id=1", chars "frag"⟩
    ⟨chars "https", chars "x.com", chars "/a", chars "id=1", []⟩
    (by decide) (by decide) (by decide) (by decide) (by decide) (by decide)

/-! ## C9 — timestamp derivation and silent dropping in the feed reader -/

set_option maxRecDepth 32768 in
/-- C9: the published timestamp is derived in the order (a) structured
publish time, (b) structured updated time, (c) free-text publish/update
string via RFC-2822 parsing, with naive results read as UTC and aware
results converted to UTC; the documented entry yields canonical URL
`https://s.com/p` and `published_at 2023-01-02T10:00:00Z`; entries lacking
a title, a link or a resolvable timestamp are silently dropped (they
contribute no item and no error). -/
theorem feed_entry_timestamp_and_dropping :
    parse_rss_feed (.doc false none [c9entry, c9aware, c9noTitle, c9noLink, c9noDate])
        ⟨"s", "S", "u"⟩ "models"
      = .ok [⟨"art_a6f6467b89e0", "A", "models", "2023-01-02T10:00:00Z",
               "Summary pending.", ⟨"s", "S", "u"⟩, "https://s.com/p"⟩,
             ⟨"art_ff25aacb8877", "B", "models", "2023-01-02T10:00:00Z",
               "Summary pending.", ⟨"s", "S", "u"⟩, "https://s.com/q"⟩]
  ∧ (∀ (e : FeedEntry) (t : Dt6) (s : String),
      e.published_parsed = some t → structTimeToIso t = some s →
      _to_iso8601 e = .ok (some s))
  ∧ (∀ (e : FeedEntry) (t : Dt6) (s : String),
      e.published_parsed = none → e.updated_parsed = some t →
      structTimeToIso t = some s → _to_iso8601 e = .ok (some s))
  ∧ (∀ (e : FeedEntry) (s : String) (dt : PyDateTime),
      e.published_parsed = none → e.updated_parsed = none →
      e.published = some s → truthyStr e.published = true →
      parsedate_to_datetime (chars s) = some dt →
      _to_iso8601 e = .ok (some (isoZ (toUtc dt).year (toUtc dt).month (toUtc dt).day
        (toUtc dt).hour (toUtc dt).minute (toUtc dt).second))
        ∧ (toUtc dt).tzOffsetSeconds = some 0)
  ∧ (∀ (src : SrcRef) (cat : String) (e : FeedEntry) (pub : Option String),
      _to_iso8601 e = .ok pub →
      (truthyStr e.title = false ∨ truthyStr e.link = false ∨ pub = none) →
      parseEntry src cat e = .ok none)
  ∧ (∀ (src : SrcRef) (cat : String) (e : FeedEntry) (es : List FeedEntry),
      parseEntry src cat e = .ok none →
      collectItems src cat (e :: es) = collectItems src cat es) := by
  refine ⟨by decide, ?_, ?_, ?_, ?_, ?_⟩
  · intro e t s hp hs
    simp only [_to_iso8601, hp, hs]
  · intro e t s hp hu hs
    simp only [_to_iso8601, hp, hu, hs]
  · intro e s dt hp hu hpub htruthy hparse
    have h2 : truthyStr (some s) = true := hpub ▸ htruthy
    constructor
    · simp [_to_iso8601, hp, hu, hpub, h2, hparse]
    · simp only [toUtc]
      cases hoff : dt.tzOffsetSeconds with
      | none => rfl
      | some off =>
        cases hc : civilOfEpoch
            (epochOfCivil dt.year dt.month dt.day dt.hour dt.minute dt.second - off) with
        | mk y rest =>
          obtain ⟨mo, d, h, mi, s2⟩ := rest
          simp [hc]
  · intro src cat e pub hiso hdrop
    simp only [parseEntry, hiso]
    rw [if_pos]
    rcases hdrop with h | h | h
    · exact Or.inl (by simp [h])
    · exact Or.inr (Or.inl (by simp [h]))
    · exact Or.inr (Or.inr h)
  · intro src cat e es hnone
    simp only [collectItems, hnone]
    cases hrest : collectItems src cat es with
    | error err => rfl
    | ok items => rfl

/-- C9 witness: the structured-publish-time branch of the theorem at a
concrete entry. -/
theorem feed_entry_timestamp_witness :
    _to_iso8601 ⟨some "A", some "l", some ⟨2023, 1, 2, 10, 0, 0⟩, none, none, none⟩
      = .ok (some "2023-01-02T10:00:00Z") :=
  feed_entry_timestamp_and_dropping.2.1
    ⟨some "A", some "l", some ⟨2023, 1, 2, 10, 0, 0⟩, none, none, none⟩
    ⟨2023, 1, 2, 10, 0, 0⟩ "2023-01-02T10:00:00Z" rfl (by decide)

/-! ## C8 — category backfill: fallback permanence -/

/-- `setPrimaryCategory` does not change the set of row ids. -/
theorem setPrimary_mem_id (db : FeedDB) (aid v : String) (a : ArticleRow)
    (ha : a ∈ (setPrimaryCategory db aid v).articles) :
    ∃ b ∈ db.articles, a.id = b.id ∧
      a.primary_category = (if b.id = aid then some v else b.primary_category) := by
  simp only [setPrimaryCategory, List.mem_map] at ha
  obtain ⟨b, hb, rfl⟩ := ha
  by_cases h : b.id = aid
  · exact ⟨b, hb, by simp [h]⟩
  · exact ⟨b, hb, by simp [h]⟩

/-- After the body of the batch loop persists a label for `aid` (an article
the re-check saw as still missing), the invariant extends to the new log
entry. -/
theorem BInv_after_set (env : String → ClassifyOutcome) (st : BState)
    (aid : String) (v : String) (hv : v = assignedCategory (env aid))
    (hinv : BInv env st)
    (hmissing : ((st.db.articles.find? (·.id = aid)).getD
        ⟨aid, "", "", "", "", none, 0, 0⟩).primary_category.isNone = true ∨
      st.db.articles.find? (·.id = aid) = none) :
    BInv env { st with db := setPrimaryCategory st.db aid v,
                       log := st.log ++ [(aid, v)] } := by
  intro p hp
  simp only [List.mem_append, List.mem_singleton] at hp
  rcases hp with hp | rfl
  · obtain ⟨hval, hrows⟩ := hinv p hp
    refine ⟨hval, ?_⟩
    intro a ha hid
    obtain ⟨b, hb, hbid, hbprim⟩ := setPrimary_mem_id st.db aid v a ha
    by_cases hba : b.id = aid
    · -- the modified id: show it cannot already be logged
      exfalso
      have hpa : p.1 = aid := by rw [← hid, hbid, hba]
      -- some row with id `aid` exists and is logged, so its category is set,
      -- contradicting the re-check that saw it missing
      cases hfind : st.db.articles.find? (·.id = aid) with
      | none =>
        rw [List.find?_eq_none] at hfind
        exact hfind b hb (by simp [hba])
      | some r =>
        have hrmem := List.mem_of_find?_eq_some hfind
        have hrid : r.id = aid := by
          have := List.find?_some hfind
          simpa using this
        have hrprim : r.primary_category = some p.2 :=
          hrows r hrmem (by rw [hrid, hpa])
        rcases hmissing with hm | hm
        · rw [hfind] at hm
          simp only [Option.getD_some, hrprim] at hm
          exact absurd hm (by simp)
        · rw [hfind] at hm
          exact absurd hm (by simp)
    · rw [hid] at hbid
      rw [hbprim, if_neg hba]
      exact hrows b hb (by rw [← hbid])
  · refine ⟨hv, ?_⟩
    intro a ha hid
    obtain ⟨b, hb, hbid, hbprim⟩ := setPrimary_mem_id st.db aid v a ha
    by_cases hba : b.id = aid
    · rw [hbprim, if_pos hba]
    · rw [hid] at hbid
      exact absurd hbid.symm hba

/-- The batch loop preserves the invariant. -/
theorem backfillForLoop_inv (env : String → ClassifyOutcome) (tt : Nat) :
    ∀ (batch : List ArticleRow) (st : BState), BInv env st →
      BInv env (backfillForLoop env tt batch st) := by
  intro batch
  induction batch with
  | nil => intro st h; exact h
  | cons a rest ih =>
    intro st hinv
    simp only [backfillForLoop]
    by_cases htt : tt ≤ st.processed
    · rw [if_pos htt]; exact hinv
    · rw [if_neg htt]
      have hinv1 : BInv env { st with processed := st.processed + 1, last_id := some a.id } :=
        hinv
      by_cases hcur : (((st.db.articles.find? (·.id = a.id)).getD a).primary_category).isSome
      · rw [if_pos hcur]
        exact ih _ hinv1
      · rw [if_neg hcur]
        have hmiss : (((st.db.articles.find? (·.id = a.id)).getD
            ⟨a.id, "", "", "", "", none, 0, 0⟩).primary_category).isNone = true ∨
            st.db.articles.find? (·.id = a.id) = none := by
          cases hfind : st.db.articles.find? (·.id = a.id) with
          | none => exact Or.inr rfl
          | some r =>
            left
            rw [hfind] at hcur
            simp only [Option.getD_some] at hcur ⊢
            have hnone : r.primary_category = none := Option.not_isSome_iff_eq_none.mp hcur
            simp [hnone]
        cases hcl : classify_article (env a.id) with
        | ok assigned =>
          have hv : assigned = assignedCategory (env a.id) := by
            simp [assignedCategory, hcl]
          exact ih _ (BInv_after_set env _ a.id assigned hv hinv1 hmiss)
        | error u =>
          have hv : FALLBACK_CATEGORY = assignedCategory (env a.id) := by
            simp [assignedCategory, hcl]
          exact ih _ (BInv_after_set env _ a.id FALLBACK_CATEGORY hv hinv1 hmiss)

/-- The while loop preserves the invariant. -/
theorem backfillWhile_inv (env : String → ClassifyOutcome) (bs tt : Nat) :
    ∀ (fuel : Nat) (st : BState), BInv env st →
      BInv env (backfillWhile env bs tt fuel st) := by
  intro fuel
  induction fuel with
  | zero => intro st h; exact h
  | succ n ih =>
    intro st hinv
    simp only [backfillWhile]
    by_cases hlt : st.processed < tt
    · rw [if_pos hlt]
      by_cases hempty : (fetch_batch st.db (min bs (tt - st.processed)) st.last_id).isEmpty
      · rw [if_pos hempty]; exact hinv
      · rw [if_neg hempty]
        exact ih _ (backfillForLoop_inv env tt _ st hinv)
    · rw [if_neg hlt]; exact hinv

/-- The final state of `backfill` satisfies the invariant. -/
theorem backfill_inv (env : String → ClassifyOutcome) (bs : Nat) (lim : Option Nat)
    (db : FeedDB) : BInv env (backfill env bs lim db) := by
  simp only [backfill]
  by_cases h0 : (db.articles.filter (missingPrimary db)).length = 0
  · rw [if_pos h0]
    intro p hp
    exact absurd hp (by simp)
  · rw [if_neg h0]
    apply backfillWhile_inv
    intro p hp
    exact absurd hp (by simp)

/-- Membership after an ordered insert: the new element or an old one. -/
theorem mem_insertByIdAsc (a x : ArticleRow) :
    ∀ l : List ArticleRow, x ∈ insertByIdAsc a l → x = a ∨ x ∈ l
  | [], h => Or.inl (by simpa [insertByIdAsc] using h)
  | b :: bs, h => by
    have hdef : insertByIdAsc a (b :: bs)
        = if pyStrLe (chars a.id) (chars b.id) = true then a :: b :: bs
          else b :: insertByIdAsc a bs := rfl
    rw [hdef] at h
    by_cases hle : pyStrLe (chars a.id) (chars b.id) = true
    · rw [if_pos hle] at h
      rcases List.mem_cons.mp h with h | h
      · exact Or.inl h
      · exact Or.inr h
    · rw [if_neg hle] at h
      rcases List.mem_cons.mp h with h | h
      · exact Or.inr (h ▸ List.mem_cons_self b bs)
      · rcases mem_insertByIdAsc a x bs h with h | h
        · exact Or.inl h
        · exact Or.inr (List.mem_cons_of_mem _ h)

/-- Members of `sortByIdAsc` come from the input list. -/
theorem mem_sortByIdAsc (x : ArticleRow) :
    ∀ l : List ArticleRow, x ∈ sortByIdAsc l → x ∈ l
  | [], h => by simp [sortByIdAsc] at h
  | b :: bs, h => by
    have hdef : sortByIdAsc (b :: bs) = insertByIdAsc b (sortByIdAsc bs) := rfl
    rw [hdef] at h
    rcases mem_insertByIdAsc b x _ h with h | h
    · exact h ▸ List.mem_cons_self b bs
    · exact List.mem_cons_of_mem _ (mem_sortByIdAsc x bs h)

/-- Members of a batch are store rows still missing a primary category. -/
theorem mem_fetch_batch (db : FeedDB) (n : Nat) (lid : Option String)
    (a : ArticleRow) (h : a ∈ fetch_batch db n lid) :
    a ∈ db.articles ∧ missingPrimary db a = true := by
  simp only [fetch_batch] at h
  have h1 := mem_sortByIdAsc a _ (List.mem_of_mem_take h)

  have h2 := List.mem_filter.mp h1
  refine ⟨h2.1, ?_⟩
  have := h2.2
  simp only [Bool.and_eq_true] at this
  exact this.1

/-- C8, counterexample: the classification call returns `"Models"` — a value
**outside** the fixed allowed category set — yet the pass persists
`"models"` (the trimmed-lowercased form), not the fallback label
`"uncategorized"`, refuting "returns a value outside the fixed allowed
category set ⇒ persists the fixed fallback label". -/
theorem backfill_invalid_value_cex :
    ALLOWED_CATEGORIES.contains "Models" = false
  ∧ (backfill (fun _ => .content "Models") 25 none
      ⟨[⟨"s1", "S1", "u1", "r1", "models", true⟩],
       [⟨"a1", "https://x.com/1", "s1", "T", "models", none, 5, 0⟩],
       [⟨"a1", "text", "m", 1⟩]⟩).log = [("a1", "models")]
  ∧ (backfill (fun _ => .content "Models") 25 none
      ⟨[⟨"s1", "S1", "u1", "r1", "models", true⟩],
       [⟨"a1", "https://x.com/1", "s1", "T", "models", none, 5, 0⟩],
       [⟨"a1", "text", "m", 1⟩]⟩).db.articles.map (·.primary_category)
      = [some "models"]
  ∧ ("models" ≠ FALLBACK_CATEGORY) := by
  refine ⟨?_, ?_, ?_, ?_⟩ <;> decide

/-- C8, amended: every article the backfill pass processes (logged as
`(id, label)`) is persisted with exactly the classifier-derived label —
never left absent; a hard failure of the call (every non-`content` outcome)
derives the fallback `"uncategorized"`, and a returned value is first
normalized (trimmed, ASCII-lowercased) and validated against the allowed
set, falling back when the **normalized** form is outside it; and a
processed article is never selected by any subsequent `fetch_batch`,
because its `primary_category` is no longer NULL. -/
theorem backfill_fallback_permanence (env : String → ClassifyOutcome)
    (bs : Nat) (lim : Option Nat) (db : FeedDB) (aid v : String)
    (hlog : (aid, v) ∈ (backfill env bs lim db).log) :
    v = assignedCategory (env aid)
  ∧ (∀ a ∈ (backfill env bs lim db).db.articles, a.id = aid →
      a.primary_category = some v)
  ∧ (∀ o : ClassifyOutcome, (∀ s, o ≠ .content s) →
      assignedCategory o = FALLBACK_CATEGORY)
  ∧ (∀ s : String, assignedCategory (.content s) = _normalize_category (some s))
  ∧ (∀ (n : Nat) (lid : Option String) (a : ArticleRow),
      a ∈ fetch_batch (backfill env bs lim db).db n lid → a.id ≠ aid) := by
  obtain ⟨hval, hrows⟩ := backfill_inv env bs lim db (aid, v) hlog
  refine ⟨hval, hrows, ?_, ?_, ?_⟩
  · intro o ho
    cases o with
    | content s => exact absurd rfl (ho s)
    | noApiKey => rfl
    | ctorRaises => rfl
    | callRaises => rfl
    | noChoices => rfl
    | noContent => rfl
  · intro s; rfl
  · intro n lid a ha hid
    obtain ⟨hmem, hmiss⟩ := mem_fetch_batch _ n lid a ha
    have := hrows a hmem hid
    simp only [missingPrimary, Bool.and_eq_true] at hmiss
    rw [this] at hmiss
    exact absurd hmiss.2 (by simp)

/-- C8 witness: the amended theorem at a concrete store whose one missing
article's classification call raises from the client constructor. -/
theorem backfill_fallback_permanence_witness :
    ("a1", "uncategorized") ∈ (backfill (fun _ => .ctorRaises) 25 none
      ⟨[⟨"s1", "S1", "u1", "r1", "models", true⟩],
       [⟨"a1", "https://x.com/1", "s1", "T", "models", none, 5, 0⟩],
       [⟨"a1", "text", "m", 1⟩]⟩).log
  ∧ ∀ a ∈ (backfill (fun _ => .ctorRaises) 25 none
      ⟨[⟨"s1", "S1", "u1", "r1", "models", true⟩],
       [⟨"a1", "https://x.com/1", "s1", "T", "models", none, 5, 0⟩],
       [⟨"a1", "text", "m", 1⟩]⟩).db.articles, a.id = "a1" →
      a.primary_category = some "uncategorized" :=
  ⟨by decide,
   (backfill_fallback_permanence (fun _ => .ctorRaises) 25 none
      ⟨[⟨"s1", "S1", "u1", "r1", "models", true⟩],
       [⟨"a1", "https://x.com/1", "s1", "T", "models", none, 5, 0⟩],
       [⟨"a1", "text", "m", 1⟩]⟩ "a1" "uncategorized" (by decide)).2.1⟩

/-! ## C2 — keyset pagination: sorting machinery -/

/-- Ordered insert is a permutation of consing. -/
theorem insertByPubDesc_perm (a : ArticleRow) :
    ∀ l : List ArticleRow, List.Perm (insertByPubDesc a l) (a :: l)
  | [] => List.Perm.refl _
  | b :: bs => by
    have hdef : insertByPubDesc a (b :: bs)
        = if b.published_at ≤ a.published_at then a :: b :: bs
          else b :: insertByPubDesc a bs := rfl
    rw [hdef]
    by_cases hle : b.published_at ≤ a.published_at
    · rw [if_pos hle]
    · rw [if_neg hle]
      exact (List.Perm.cons b (insertByPubDesc_perm a bs)).trans
        (List.Perm.swap a b bs)

/-- The descending sort is a permutation of its input. -/
theorem sortByPubDesc_perm : ∀ l : List ArticleRow, List.Perm (sortByPubDesc l) l
  | [] => List.Perm.refl _
  | b :: bs => by
    have hdef : sortByPubDesc (b :: bs) = insertByPubDesc b (sortByPubDesc bs) := rfl
    rw [hdef]
    exact (insertByPubDesc_perm b (sortByPubDesc bs)).trans
      (List.Perm.cons b (sortByPubDesc_perm bs))

/-- Inserting an element at least as recent as every list member conses it. -/
theorem insertByPubDesc_front (a : ArticleRow) :
    ∀ l : List ArticleRow, (∀ x ∈ l, x.published_at ≤ a.published_at) →
      insertByPubDesc a l = a :: l
  | [], _ => rfl
  | b :: bs, h => by
    have hdef : insertByPubDesc a (b :: bs)
        = if b.published_at ≤ a.published_at then a :: b :: bs
          else b :: insertByPubDesc a bs := rfl
    rw [hdef, if_pos (h b (List.mem_cons_self b bs))]

/-- Ordered insert preserves the descending invariant. -/
theorem insertByPubDesc_pairwise (a : ArticleRow) :
    ∀ l : List ArticleRow,
      l.Pairwise (fun x y => y.published_at ≤ x.published_at) →
      (insertByPubDesc a l).Pairwise (fun x y => y.published_at ≤ x.published_at)
  | [], _ => List.pairwise_singleton _ a
  | b :: bs, h => by
    have hdef : insertByPubDesc a (b :: bs)
        = if b.published_at ≤ a.published_at then a :: b :: bs
          else b :: insertByPubDesc a bs := rfl
    rw [hdef]
    rw [List.pairwise_cons] at h
    by_cases hle : b.published_at ≤ a.published_at
    · rw [if_pos hle]
      refine List.Pairwise.cons ?_ (List.Pairwise.cons h.1 h.2)
      intro x hx
      rcases List.mem_cons.mp hx with rfl | hx
      · exact hle
      · exact le_trans (h.1 x hx) hle
    · rw [if_neg hle]
      refine List.Pairwise.cons ?_ (insertByPubDesc_pairwise a bs h.2)
      intro x hx
      rcases (insertByPubDesc_perm a bs).mem_iff.mp hx with hx2
      rcases List.mem_cons.mp hx2 with rfl | hx3
      · exact le_of_lt (lt_of_not_le hle)
      · exact h.1 x hx3

/-- The sort output is descending in `published_at`. -/
theorem sortByPubDesc_pairwise :
    ∀ l : List ArticleRow,
      (sortByPubDesc l).Pairwise (fun x y => y.published_at ≤ x.published_at)
  | [] => List.Pairwise.nil
  | b :: bs => by
    have hdef : sortByPubDesc (b :: bs) = insertByPubDesc b (sortByPubDesc bs) := rfl
    rw [hdef]
    exact insertByPubDesc_pairwise b _ (sortByPubDesc_pairwise bs)

/-- A weakly descending list with pairwise-distinct timestamps is strictly
descending. -/
theorem pairwise_lt_of_pairwise_le_nodup :
    ∀ l : List ArticleRow,
      l.Pairwise (fun x y => y.published_at ≤ x.published_at) →
      (l.map (·.published_at)).Nodup →
      l.Pairwise (fun x y => y.published_at < x.published_at)
  | [], _, _ => List.Pairwise.nil
  | b :: bs, h, hn => by
    rw [List.pairwise_cons] at h
    simp only [List.map_cons, List.nodup_cons] at hn
    refine List.Pairwise.cons ?_ (pairwise_lt_of_pairwise_le_nodup bs h.2 hn.2)
    intro x hx
    refine lt_of_le_of_ne (h.1 x hx) ?_
    intro heq
    exact hn.1 (heq ▸ List.mem_map_of_mem (·.published_at) hx)

/-- Filtering commutes with ordered insert when the element is kept and the
list is already descending. -/
theorem filter_insertByPubDesc_pos (p : ArticleRow → Bool) (a : ArticleRow)
    (hp : p a = true) :
    ∀ l : List ArticleRow,
      l.Pairwise (fun x y => y.published_at ≤ x.published_at) →
      (insertByPubDesc a l).filter p = insertByPubDesc a (l.filter p)
  | [], _ => by simp [insertByPubDesc, hp]
  | b :: bs, h => by
    have hdef : insertByPubDesc a (b :: bs)
        = if b.published_at ≤ a.published_at then a :: b :: bs
          else b :: insertByPubDesc a bs := rfl
    rw [List.pairwise_cons] at h
    rw [hdef]
    by_cases hle : b.published_at ≤ a.published_at
    · rw [if_pos hle]
      rw [List.filter_cons_of_pos hp]
      by_cases hpb : p b = true
      · rw [List.filter_cons_of_pos hpb]
        rw [insertByPubDesc_front a (b :: bs.filter p)]
        intro x hx
        rcases List.mem_cons.mp hx with rfl | hx
        · exact hle
        · exact le_trans (h.1 x (List.mem_of_mem_filter hx)) hle
      · rw [List.filter_cons_of_neg (by simpa using hpb)]
        rw [insertByPubDesc_front a (bs.filter p)]
        intro x hx
        exact le_trans (h.1 x (List.mem_of_mem_filter hx)) hle
    · rw [if_neg hle]
      by_cases hpb : p b = true
      · rw [List.filter_cons_of_pos hpb, List.filter_cons_of_pos hpb]
        have hdef2 : insertByPubDesc a (b :: bs.filter p)
            = if b.published_at ≤ a.published_at then a :: b :: bs.filter p
              else b :: insertByPubDesc a (bs.filter p) := rfl
        rw [hdef2, if_neg hle]
        rw [filter_insertByPubDesc_pos p a hp bs h.2]
      · rw [List.filter_cons_of_neg (by simpa using hpb),
            List.filter_cons_of_neg (by simpa using hpb)]
        rw [filter_insertByPubDesc_pos p a hp bs h.2]

/-- Filtering commutes with ordered insert when the element is dropped. -/
theorem filter_insertByPubDesc_neg (p : ArticleRow → Bool) (a : ArticleRow)
    (hp : ¬p a = true) :
    ∀ l : List ArticleRow, (insertByPubDesc a l).filter p = l.filter p
  | [] => by simp [insertByPubDesc, hp]
  | b :: bs => by
    have hdef : insertByPubDesc a (b :: bs)
        = if b.published_at ≤ a.published_at then a :: b :: bs
          else b :: insertByPubDesc a bs := rfl
    rw [hdef]
    by_cases hle : b.published_at ≤ a.published_at
    · rw [if_pos hle, List.filter_cons_of_neg (by simpa using hp)]
    · rw [if_neg hle]
      by_cases hpb : p b = true
      · rw [List.filter_cons_of_pos hpb, List.filter_cons_of_pos hpb,
          filter_insertByPubDesc_neg p a hp bs]
      · rw [List.filter_cons_of_neg (by simpa using hpb),
          List.filter_cons_of_neg (by simpa using hpb),
          filter_insertByPubDesc_neg p a hp bs]

/-- The stable descending sort commutes with filtering. -/
theorem sortByPubDesc_filter (p : ArticleRow → Bool) :
    ∀ l : List ArticleRow, sortByPubDesc (l.filter p) = (sortByPubDesc l).filter p
  | [] => rfl
  | b :: bs => by
    have hdef : sortByPubDesc (b :: bs) = insertByPubDesc b (sortByPubDesc bs) := rfl
    rw [hdef]
    by_cases hpb : p b = true
    · rw [List.filter_cons_of_pos hpb]
      have hdef2 : sortByPubDesc (b :: bs.filter p)
          = insertByPubDesc b (sortByPubDesc (bs.filter p)) := rfl
      rw [hdef2, sortByPubDesc_filter p bs,
        filter_insertByPubDesc_pos p b hpb _ (sortByPubDesc_pairwise bs)]
    · rw [List.filter_cons_of_neg (by simpa using hpb),
        sortByPubDesc_filter p bs,
        filter_insertByPubDesc_neg p b (by simpa using hpb) _]

/-- The element named by `getLast?` is a member. -/
theorem mem_of_getLast?_some {α : Type} : ∀ {l : List α} {e : α},
    l.getLast? = some e → e ∈ l
  | [], _, h => by simp at h
  | [a], e, h => by simp_all
  | a :: b :: l, e, h => by
    rw [List.getLast?_cons_cons] at h
    exact List.mem_cons_of_mem a (mem_of_getLast?_some h)

/-- In a strictly descending list, the last retained element's timestamp
bounds every member from below. -/
theorem getLast?_le_of_strict_desc :
    ∀ (T : List ArticleRow) (e : ArticleRow),
      T.Pairwise (fun x y => y.published_at < x.published_at) →
      T.getLast? = some e → ∀ x ∈ T, e.published_at ≤ x.published_at
  | [], e, _, he => by simp at he
  | [b], e, _, he => by
    intro x hx
    simp only [List.getLast?_singleton, Option.some.injEq] at he
    rcases List.mem_singleton.mp hx with rfl
    rw [he]
  | b :: c :: T, e, hs, he => by
    intro x hx
    rw [List.pairwise_cons] at hs
    have htail : (c :: T).getLast? = some e := by
      simpa [List.getLast?] using he
    rcases List.mem_cons.mp hx with rfl | hx
    · have hemem : e ∈ c :: T := mem_of_getLast?_some htail
      exact le_of_lt (hs.1 e hemem)
    · exact getLast?_le_of_strict_desc (c :: T) e hs.2 htail x hx

/-- `get_feed` with no source filter, characterized over the sorted,
cursor-filtered eligible list. -/
theorem get_feed_none_char (db : FeedDB) (limit : Nat) (cur : Option Int) :
    get_feed db limit cur none
      = { items := ((applyCursor cur (sortByPubDesc
              (db.articles.filter (hasSummary db)))).take limit).map (articleToItem db)
          next_cursor :=
            let S := applyCursor cur (sortByPubDesc (db.articles.filter (hasSummary db)))
            if limit < (S.take (limit + 1)).length ∧ ¬(S.take limit).isEmpty then
              ((S.take limit).getLast?).map (·.published_at)
            else none } := by
  cases cur with
  | none =>
    simp only [get_feed, parseSourcesParam, applyCursor]
    rw [if_neg (by simp)]
    simp only [List.take_take, Nat.min_self, inf_of_le_left (Nat.le_succ limit)]
  | some c =>
    simp only [get_feed, parseSourcesParam, applyCursor]
    rw [if_neg (by simp)]
    rw [sortByPubDesc_filter]
    simp only [List.take_take, Nat.min_self, inf_of_le_left (Nat.le_succ limit)]

/-- The core pagination argument: with pairwise-distinct timestamps, the
page walk returns exactly the cursor-filtered sorted list. -/
theorem collectFeed_exhausts (db : FeedDB) (limit : Nat) (h1 : 1 ≤ limit)
    (hstrict : (sortByPubDesc (db.articles.filter (hasSummary db))).Pairwise
      (fun x y => y.published_at < x.published_at)) :
    ∀ (fuel : Nat) (cur : Option Int),
      (applyCursor cur (sortByPubDesc (db.articles.filter (hasSummary db)))).length < fuel →
      collectFeed db limit fuel cur
        = (applyCursor cur (sortByPubDesc (db.articles.filter (hasSummary db)))).map
            (articleToItem db) := by
  intro fuel
  induction fuel with
  | zero => intro cur h; exact absurd h (Nat.not_lt_zero _)
  | succ n ih =>
    intro cur hlen
    have hSstrict : (applyCursor cur (sortByPubDesc
        (db.articles.filter (hasSummary db)))).Pairwise
        (fun x y => y.published_at < x.published_at) := by
      cases cur with
      | none => exact hstrict
      | some c => exact List.Pairwise.filter _ hstrict
    set L := sortByPubDesc (db.articles.filter (hasSummary db)) with hLdef
    set S := applyCursor cur L with hSdef
    simp only [collectFeed, get_feed_none_char]
    by_cases hsmall : S.length ≤ limit
    · have htake : S.take limit = S := List.take_of_length_le hsmall
      have htake1 : S.take (limit + 1) = S :=
        List.take_of_length_le (le_trans hsmall (Nat.le_succ limit))
      rw [if_neg]
      · simp only [← hSdef, htake, List.append_nil]
      · rw [htake1, ← hSdef]
        intro hcon
        exact absurd hsmall (not_le.mpr hcon.1)
    · push_neg at hsmall
      have hlen1 : (S.take (limit + 1)).length = limit + 1 := by
        rw [List.length_take]
        omega
      have hlenp : (S.take limit).length = limit := by
        rw [List.length_take]
        omega
      have hne : ¬(S.take limit).isEmpty := by
        rw [List.isEmpty_iff_length_eq_zero, hlenp]
        omega
      rw [if_pos ⟨by rw [hlen1]; omega, hne⟩]
      obtain ⟨e, he⟩ : ∃ e, (S.take limit).getLast? = some e := by
        cases hgl : (S.take limit).getLast? with
        | none =>
          rw [List.getLast?_eq_none_iff] at hgl
          rw [hgl] at hlenp
          simp at hlenp
          omega
        | some e => exact ⟨e, rfl⟩
      rw [he]
      simp only [Option.map_some']
      -- the next page's rows are exactly the remainder after this page
      have hsplit : S = S.take limit ++ S.drop limit := (List.take_append_drop limit S).symm
      have hpw : List.Pairwise (fun x y => y.published_at < x.published_at)
          (S.take limit ++ S.drop limit) := hsplit ▸ hSstrict
      rw [List.pairwise_append] at hpw
      have hfilter_drop : ∀ x ∈ S.drop limit, x.published_at < e.published_at :=
        fun x hx => hpw.2.2 e (mem_of_getLast?_some he) x hx
      have hfilter_take : ∀ x ∈ S.take limit, e.published_at ≤ x.published_at :=
        getLast?_le_of_strict_desc (S.take limit) e hpw.1 he
      have hnextS : applyCursor (some e.published_at) L = S.drop limit := by
        have hLS : ∀ x ∈ L, x.published_at < e.published_at → x ∈ S := by
          intro x hxL hxe
          cases cur with
          | none => exact hxL
          | some c =>
            have hec : e.published_at < c := by
              have he_memS : e ∈ S := List.mem_of_mem_take (mem_of_getLast?_some he)
              have := List.of_mem_filter he_memS
              simpa using this
            rw [hSdef]
            simp only [applyCursor, List.mem_filter]
            refine ⟨hxL, ?_⟩
            simp only [decide_eq_true_eq]
            omega
        -- filter over L equals filter over S, and that filter is the drop
        have hstep1 : L.filter (fun a => a.published_at < e.published_at)
            = S.filter (fun a => a.published_at < e.published_at) := by
          cases cur with
          | none => rfl
          | some c =>
            rw [hSdef]
            simp only [applyCursor]
            rw [List.filter_filter]
            apply List.filter_congr
            intro x hxL
            by_cases hx : x.published_at < e.published_at
            · have hxS := hLS x hxL hx
              rw [hSdef] at hxS
              simp only [applyCursor, List.mem_filter, decide_eq_true_eq] at hxS
              simp [hx, hxS.2]
            · simp [hx]
        have hstep2 : S.filter (fun a => a.published_at < e.published_at)
            = S.drop limit := by
          conv_lhs => rw [hsplit]
          rw [List.filter_append]
          have h1 : (S.take limit).filter (fun a => a.published_at < e.published_at) = [] := by
            rw [List.filter_eq_nil_iff]
            intro x hx
            simp only [decide_eq_true_eq]
            exact not_lt.mpr (hfilter_take x hx)
          have h2 : (S.drop limit).filter (fun a => a.published_at < e.published_at)
              = S.drop limit := by
            rw [List.filter_eq_self]
            intro x hx
            simp only [decide_eq_true_eq]
            exact hfilter_drop x hx
          rw [h1, h2, List.nil_append]
        simp only [applyCursor]
        rw [hstep1, hstep2]
      rw [ih (some e.published_at)
        (by rw [hnextS]; have := List.length_drop limit S; omega)]
      rw [hnextS, ← hLdef, ← hSdef]
      conv_rhs => rw [hsplit]
      rw [List.map_append]

/-- C2, counterexample: with two eligible articles sharing `published_at`
and `limit = 1` (within the allowed 1–50 range), following every
`next_cursor` returns one single item in total — the article tied at the
page boundary is skipped by the strict `published_at < cursor` filter, so
"every article appearing exactly once ... including when distinct articles
share the same published timestamp" is false. -/
theorem keyset_pagination_ties_cex :
    (c2db.articles.filter (hasSummary c2db)).length = 2
  ∧ (collectFeed c2db 1 10 none).length = 1 := by
  constructor
  · decide
  · decide

/-- C2, amended: when the eligible articles' published timestamps are
pairwise distinct, following every `next_cursor` from an uncursored
`GET /v1/feed` request concatenates to exactly the
descending-by-`published_at` sequence of all summarized articles, each
exactly once (a permutation of the eligible set, in weakly descending
order); and a request with cursor `C` returns only items with published
timestamp strictly below `C`.  (With tied timestamps at a page boundary the
tied articles are skipped, see the counterexample.) -/
theorem keyset_pagination_distinct (db : FeedDB) (limit : Nat) (h1 : 1 ≤ limit)
    (hN : ((db.articles.filter (hasSummary db)).map (·.published_at)).Nodup) :
    collectFeed db limit ((db.articles.filter (hasSummary db)).length + 1) none
      = (sortByPubDesc (db.articles.filter (hasSummary db))).map (articleToItem db)
  ∧ List.Perm
      ((sortByPubDesc (db.articles.filter (hasSummary db))).map (articleToItem db))
      ((db.articles.filter (hasSummary db)).map (articleToItem db))
  ∧ ((sortByPubDesc (db.articles.filter (hasSummary db))).map
      (articleToItem db)).Pairwise (fun x y => y.published_at ≤ x.published_at)
  ∧ (∀ (C : Int) (it : FeedItem), it ∈ (get_feed db limit (some C) none).items →
      it.published_at < C) := by
  have hperm := sortByPubDesc_perm (db.articles.filter (hasSummary db))
  have hnodup : ((sortByPubDesc (db.articles.filter (hasSummary db))).map
      (·.published_at)).Nodup := ((hperm.map (·.published_at)).nodup_iff).mpr hN
  have hstrict := pairwise_lt_of_pairwise_le_nodup _
    (sortByPubDesc_pairwise (db.articles.filter (hasSummary db))) hnodup
  refine ⟨?_, hperm.map _, ?_, ?_⟩
  · apply collectFeed_exhausts db limit h1 hstrict
    simp only [applyCursor]
    rw [hperm.length_eq]
    omega
  · refine List.Pairwise.map _ ?_ (sortByPubDesc_pairwise _)
    intro a b h
    exact h
  · intro C it hit
    rw [get_feed_none_char] at hit
    simp only [List.mem_map] at hit
    obtain ⟨a, ha, rfl⟩ := hit
    have haS := List.mem_of_mem_take ha
    simp only [applyCursor, List.mem_filter, decide_eq_true_eq] at haS
    exact haS.2

/-- C2 witness: the amended pagination theorem at a concrete two-article
store paged with `limit = 1`. -/
theorem keyset_pagination_distinct_witness :
    collectFeed c2wdb 1 ((c2wdb.articles.filter (hasSummary c2wdb)).length + 1) none
      = (sortByPubDesc (c2wdb.articles.filter (hasSummary c2wdb))).map
          (articleToItem c2wdb) :=
  (keyset_pagination_distinct c2wdb 1 (by decide) (by decide)).1

/-! ## C1 — concurrent deduplication on canonical URL -/

/-- `urlExists` decides membership in the stored canonical URLs. -/
theorem urlExists_iff (db : List ArticleRow) (u : String) :
    urlExists db u = true ↔ u ∈ dbUrls db := by
  simp only [urlExists, dbUrls, List.any_eq_true, List.mem_map,
    decide_eq_true_eq]

/-- One store operation of one run preserves distinctness, run health, and
the stored-plus-owed URL set. -/
theorem runStep_spec (db : List ArticleRow) (r : RunState)
    (hnd : (dbUrls db).Nodup) (hok : RunOk r) :
    (dbUrls (runStep db r).1).Nodup ∧ RunOk (runStep db r).2
  ∧ ((dbUrls (runStep db r).1).toFinset ∪ (runObligation (runStep db r).2).toFinset)
      = ((dbUrls db).toFinset ∪ (runObligation r).toFinset) := by
  obtain ⟨rem, pend, cr⟩ := r
  obtain ⟨hrem, hpend, hcr⟩ := hok
  simp only at hrem hpend hcr
  subst hcr
  cases pend with
  | some p =>
    obtain ⟨c, row⟩ := p
    have hcf : c.commit_fails = false := hpend (c, row) rfl
    have hstep : runStep db ⟨rem, some (c, row), false⟩
        = if urlExists db row.canonical_url = true then
            (db, ⟨rem, none, false⟩)
          else if c.commit_fails = true then (db, ⟨rem, none, true⟩)
          else (db ++ [row], ⟨rem, none, false⟩) := by
      by_cases hex : urlExists db row.canonical_url = true
      · simp only [runStep, if_pos hex, Bool.false_eq_true, if_false]
      · simp only [runStep, if_neg hex, Bool.false_eq_true, if_false]
    rw [hstep]
    by_cases hex : urlExists db row.canonical_url = true
    · rw [if_pos hex]
      have hmem : row.canonical_url ∈ dbUrls db := (urlExists_iff db _).mp hex
      refine ⟨hnd, ⟨hrem, by simp, rfl⟩, ?_⟩
      ext u
      have habs : u = row.canonical_url → u ∈ dbUrls db := fun hv => hv ▸ hmem
      simp only [Finset.mem_union, List.mem_toFinset, runObligation,
        List.mem_append, List.mem_singleton, List.not_mem_nil, or_false]
      tauto
    · rw [if_neg hex, hcf]
      simp only [Bool.false_eq_true, if_false]
      have hnotmem : row.canonical_url ∉ dbUrls db := fun hm =>
        hex ((urlExists_iff db _).mpr hm)
      refine ⟨?_, ⟨hrem, by simp, rfl⟩, ?_⟩
      · rw [dbUrls, List.map_append, List.nodup_append]
        refine ⟨hnd, List.nodup_singleton _, ?_⟩
        intro a ha hb
        simp only [List.map_cons, List.map_nil, List.mem_singleton] at hb
        subst hb
        exact hnotmem ha
      · ext u
        simp only [Finset.mem_union, List.mem_toFinset, runObligation,
          dbUrls, List.map_append, List.mem_append, List.mem_singleton,
          List.map_cons, List.map_nil, List.mem_cons, List.not_mem_nil, or_false]
        tauto
  | none =>
    cases rem with
    | nil =>
      exact ⟨hnd, ⟨fun c hc => absurd hc (List.not_mem_nil c),
        fun p hp => Option.noConfusion hp, rfl⟩, rfl⟩
    | cons c rest =>
      have hc := hrem c (List.mem_cons_self c rest)
      obtain ⟨cu, hcu⟩ := Option.isSome_iff_exists.mp hc.1
      have hremrest : ∀ x ∈ rest, (canonicalize_url x.original_url).isSome = true
          ∧ x.commit_fails = false :=
        fun x hx => hrem x (List.mem_cons_of_mem c hx)
      have hstep : runStep db ⟨c :: rest, none, false⟩
          = if urlExists db cu = true then (db, ⟨rest, none, false⟩)
            else (db, ⟨rest, some (c, mkArticleRow c cu c.source_id), false⟩) := by
        simp only [runStep, Bool.false_eq_true, if_false, hcu]
      rw [hstep]
      have hfm : ((c :: rest).filterMap fun x => canonicalize_url x.original_url)
          = cu :: (rest.filterMap fun x => canonicalize_url x.original_url) := by
        rw [List.filterMap_cons, hcu]
      by_cases hex : urlExists db cu = true
      · rw [if_pos hex]
        have hmem : cu ∈ dbUrls db := (urlExists_iff db _).mp hex
        refine ⟨hnd, ⟨hremrest, by simp, rfl⟩, ?_⟩
        ext u
        have habs : u = cu → u ∈ dbUrls db := fun hv => hv ▸ hmem
        simp only [Finset.mem_union, List.mem_toFinset, runObligation, hfm,
          List.mem_append, List.mem_cons, List.not_mem_nil, or_false]
        tauto
      · rw [if_neg hex]
        refine ⟨hnd, ⟨hremrest, ?_, rfl⟩, ?_⟩
        · rintro p hpeq
          simp only [Option.some.injEq] at hpeq
          rw [← hpeq]
          exact hc.2
        · ext u
          simp only [Finset.mem_union, List.mem_toFinset, runObligation, hfm,
            List.mem_append, List.mem_cons, List.not_mem_nil, or_false,
            List.mem_singleton, mkArticleRow]
          tauto

/-- Advancing either run preserves the invariant. -/
theorem stepChoice_inv (target : Finset String) (s : IngestState) (pick : Bool)
    (h : IngestInv target s) : IngestInv target (stepChoice s pick) := by
  obtain ⟨hnd, hset, hokA, hokB⟩ := h
  cases pick with
  | true =>
    obtain ⟨hnd2, hok2, hset2⟩ := runStep_spec s.db s.runA hnd hokA
    refine ⟨hnd2, ?_, hok2, hokB⟩
    show (dbUrls (runStep s.db s.runA).1).toFinset
        ∪ (runObligation (runStep s.db s.runA).2).toFinset
        ∪ (runObligation s.runB).toFinset = target
    rw [← hset]
    ext u
    have h1 := Finset.ext_iff.mp hset2 u
    simp only [Finset.mem_union] at h1 ⊢
    tauto
  | false =>
    obtain ⟨hnd2, hok2, hset2⟩ := runStep_spec s.db s.runB hnd hokB
    refine ⟨hnd2, ?_, hokA, hok2⟩
    show (dbUrls (runStep s.db s.runB).1).toFinset
        ∪ (runObligation s.runA).toFinset
        ∪ (runObligation (runStep s.db s.runB).2).toFinset = target
    rw [← hset]
    ext u
    have h1 := Finset.ext_iff.mp hset2 u
    simp only [Finset.mem_union] at h1 ⊢
    tauto

/-- Any schedule preserves the invariant. -/
theorem execSched_inv (target : Finset String) :
    ∀ (sched : List Bool) (s : IngestState), IngestInv target s →
      IngestInv target (execSched sched s)
  | [], _, h => h
  | pick :: sched, s, h =>
    execSched_inv target sched (stepChoice s pick) (stepChoice_inv target s pick h)

/-- C1: for any two ingestion runs over arbitrary candidate lists whose URLs
canonicalize without error and with no external commit failures, under
**any** interleaving of their store operations (sequential schedules
included), once both runs have processed all their candidates: neither run
crashed (re-ingesting a seen canonical URL is a skip — on a conflict the
insert is abandoned, rolled back and resolved by re-query — never a fatal
error), no two Article rows share a canonical URL, and the row count equals
the number of distinct canonical URLs seen. -/
theorem concurrent_ingestion_dedup (candsA candsB : List CandArticle)
    (sched : List Bool)
    (hparse : ∀ c ∈ candsA ++ candsB, (canonicalize_url c.original_url).isSome = true)
    (hnofail : ∀ c ∈ candsA ++ candsB, c.commit_fails = false)
    (hdoneA : runDone (execSched sched (initIngest candsA candsB)).runA = true)
    (hdoneB : runDone (execSched sched (initIngest candsA candsB)).runB = true) :
    (execSched sched (initIngest candsA candsB)).runA.crashed = false
  ∧ (execSched sched (initIngest candsA candsB)).runB.crashed = false
  ∧ ((execSched sched (initIngest candsA candsB)).db.map (·.canonical_url)).Nodup
  ∧ (execSched sched (initIngest candsA candsB)).db.length
      = ((candsA ++ candsB).filterMap fun c => canonicalize_url c.original_url).toFinset.card := by
  have hinit : IngestInv
      ((candsA ++ candsB).filterMap fun c => canonicalize_url c.original_url).toFinset
      (initIngest candsA candsB) := by
    refine ⟨List.nodup_nil, ?_, ?_, ?_⟩
    · ext u
      simp only [initIngest, dbUrls, runObligation, List.map_nil, List.toFinset_nil,
        Finset.mem_union, Finset.not_mem_empty, List.mem_toFinset, List.append_nil,
        List.filterMap_append, List.mem_append, false_or]
    · exact ⟨fun c hc => ⟨hparse c (List.mem_append_left _ hc),
        hnofail c (List.mem_append_left _ hc)⟩,
        fun p hp => Option.noConfusion hp, rfl⟩
    · exact ⟨fun c hc => ⟨hparse c (List.mem_append_right _ hc),
        hnofail c (List.mem_append_right _ hc)⟩,
        fun p hp => Option.noConfusion hp, rfl⟩
  obtain ⟨hnd, hset, hokA, hokB⟩ := execSched_inv _ sched _ hinit
  have hdone : ∀ r : RunState, runDone r = true → runObligation r = [] := by
    intro r hr
    simp only [runDone, Bool.and_eq_true, List.isEmpty_iff,
      Option.isNone_iff_eq_none] at hr
    simp [runObligation, hr.1, hr.2]
  rw [hdone _ hdoneA, hdone _ hdoneB] at hset
  simp only [List.toFinset_nil, Finset.union_empty] at hset
  refine ⟨hokA.2.2, hokB.2.2, hnd, ?_⟩
  have hlen : (execSched sched (initIngest candsA candsB)).db.length
      = (dbUrls (execSched sched (initIngest candsA candsB)).db).length := by
    rw [dbUrls, List.length_map]
  rw [hlen, ← List.toFinset_card_of_nodup hnd, hset]

/-- C1 witness: the theorem at a racing schedule (A checks, B checks, B
inserts, A's insert conflicts and resolves as a skip). -/
theorem concurrent_ingestion_dedup_witness :
    (execSched [true, false, false, true] (initIngest [c1candA] [c1candB])).runA.crashed = false
  ∧ (execSched [true, false, false, true] (initIngest [c1candA] [c1candB])).runB.crashed = false
  ∧ ((execSched [true, false, false, true] (initIngest [c1candA] [c1candB])).db.map
      (·.canonical_url)).Nodup
  ∧ (execSched [true, false, false, true] (initIngest [c1candA] [c1candB])).db.length
      = (([c1candA] ++ [c1candB]).filterMap fun c => canonicalize_url c.original_url).toFinset.card :=
  concurrent_ingestion_dedup [c1candA] [c1candB] [true, false, false, true]
    (by decide) (by decide) (by decide) (by decide)

/-! ## C10 — canonicalization as a frame over scheme/netloc/path -/

/-- `splitAtFirst` decomposition. -/
theorem splitAtFirst_eq_some (c : Char) :
    ∀ (l b a : List Char), splitAtFirst c l = some (b, a) → l = b ++ c :: a ∧ c ∉ b
  | [], b, a, h => by simp [splitAtFirst] at h
  | x :: xs, b, a, h => by
    rw [show splitAtFirst c (x :: xs)
        = if x = c then some ([], xs)
          else match splitAtFirst c xs with
               | none => none
               | some (b, a) => some (x :: b, a) from rfl] at h
    by_cases hx : x = c
    · rw [if_pos hx] at h
      simp only [Option.some.injEq, Prod.mk.injEq] at h
      obtain ⟨hb, ha⟩ := h
      subst hb; subst ha; subst hx
      exact ⟨rfl, List.not_mem_nil _⟩
    · rw [if_neg hx] at h
      cases hxs : splitAtFirst c xs with
      | none => rw [hxs] at h; exact absurd h (by simp)
      | some p =>
        obtain ⟨b2, a2⟩ := p
        rw [hxs] at h
        simp only [Option.some.injEq, Prod.mk.injEq] at h
        obtain ⟨hb, ha⟩ := h
        obtain ⟨hl, hnb⟩ := splitAtFirst_eq_some c xs b2 a2 hxs
        subst hb; subst ha
        refine ⟨by rw [List.cons_append, hl], ?_⟩
        intro hmem
        rcases List.mem_cons.mp hmem with hce | hmem
        · exact hx hce.symm
        · exact hnb hmem

/-- `splitAtFirst` finds nothing exactly when the character is absent. -/
theorem splitAtFirst_eq_none (c : Char) :
    ∀ l : List Char, splitAtFirst c l = none ↔ c ∉ l
  | [] => by simp [splitAtFirst]
  | x :: xs => by
    rw [show splitAtFirst c (x :: xs)
        = if x = c then some ([], xs)
          else match splitAtFirst c xs with
               | none => none
               | some (b, a) => some (x :: b, a) from rfl]
    by_cases hx : x = c
    · rw [if_pos hx]
      simp [hx]
    · rw [if_neg hx]
      cases hxs : splitAtFirst c xs with
      | none =>
        constructor
        · intro _
          rw [List.mem_cons, not_or]
          exact ⟨fun hce => hx hce.symm, (splitAtFirst_eq_none c xs).mp hxs⟩
        · intro _
          rfl
      | some p =>
        obtain ⟨b2, a2⟩ := p
        have hmem : c ∈ xs := by
          obtain ⟨hl, _⟩ := splitAtFirst_eq_some c xs b2 a2 hxs
          rw [hl]
          exact List.mem_append_right _ (List.mem_cons_self c a2)
        simp [hmem]

/-- `splitAtFirst` on a list built around the first occurrence of `c`. -/
theorem splitAtFirst_append (c : Char) :
    ∀ (b a : List Char), c ∉ b → splitAtFirst c (b ++ c :: a) = some (b, a)
  | [], a, _ => by simp [splitAtFirst]
  | x :: b, a, h => by
    have hx : ¬x = c := fun hxe => h (hxe ▸ List.mem_cons_self x b)
    rw [List.cons_append,
      show splitAtFirst c (x :: (b ++ c :: a))
        = if x = c then some ([], b ++ c :: a)
          else match splitAtFirst c (b ++ c :: a) with
               | none => none
               | some (p, q) => some (x :: p, q) from rfl,
      if_neg hx,
      splitAtFirst_append c b a (fun hm => h (List.mem_cons_of_mem x hm))]

/-- The no-occurrence case of `splitAtFirstD`. -/
theorem splitAtFirstD_of_not_mem (c : Char) (l : List Char) (h : c ∉ l) :
    splitAtFirstD c l = (l, []) := by
  rw [splitAtFirstD, (splitAtFirst_eq_none c l).mpr h]

/-- The first-occurrence case of `splitAtFirstD`. -/
theorem splitAtFirstD_append (c : Char) (b a : List Char) (h : c ∉ b) :
    splitAtFirstD c (b ++ c :: a) = (b, a) := by
  rw [splitAtFirstD, splitAtFirst_append c b a h]

/-- `Char` order is the order of the underlying code points. -/
theorem char_le_iff (a b : Char) : a ≤ b ↔ a.toNat ≤ b.toNat := Iff.rfl

/-- `Char.ofNat` on a valid code point. -/
theorem toNat_ofNat_valid (n : Nat) (h : n.isValidChar) : (Char.ofNat n).toNat = n := by
  unfold Char.ofNat
  rw [dif_pos h]
  rfl

/-- The code point of `lowerChar`. -/
theorem lowerChar_toNat (c : Char) :
    (lowerChar c).toNat
      = if 65 ≤ c.toNat ∧ c.toNat ≤ 90 then c.toNat + 32 else c.toNat := by
  rw [lowerChar]
  by_cases h : 'A' ≤ c ∧ c ≤ 'Z'
  · have h65 : 65 ≤ c.toNat := h.1
    have h90 : c.toNat ≤ 90 := h.2
    rw [if_pos h, if_pos ⟨h65, h90⟩]
    exact toNat_ofNat_valid _ (Or.inl (by omega))
  · have h2 : ¬(65 ≤ c.toNat ∧ c.toNat ≤ 90) := fun hc => h ⟨hc.1, hc.2⟩
    rw [if_neg h, if_neg h2]

/-- `lowerChar` fixes characters outside the uppercase range. -/
theorem lowerChar_fixed (c : Char) (h : ¬(65 ≤ c.toNat ∧ c.toNat ≤ 90)) :
    lowerChar c = c := by
  rw [lowerChar, if_neg (fun hc => h ⟨hc.1, hc.2⟩)]

/-- `lowerChar` is idempotent. -/
theorem lowerChar_idem (c : Char) : lowerChar (lowerChar c) = lowerChar c := by
  by_cases h : 65 ≤ c.toNat ∧ c.toNat ≤ 90
  · apply lowerChar_fixed
    rw [lowerChar_toNat, if_pos h]
    omega
  · rw [lowerChar_fixed c h, lowerChar_fixed c h]

/-- ASCII-letter test over code points. -/
theorem isAsciiAlphaChar_iff (c : Char) :
    isAsciiAlphaChar c = true
      ↔ ((97 ≤ c.toNat ∧ c.toNat ≤ 122) ∨ (65 ≤ c.toNat ∧ c.toNat ≤ 90)) := by
  simp only [isAsciiAlphaChar, Bool.or_eq_true, Bool.and_eq_true, decide_eq_true_eq]
  exact Iff.rfl

/-- `lowerChar` preserves ASCII letters. -/
theorem isAsciiAlphaChar_lowerChar (c : Char) (h : isAsciiAlphaChar c = true) :
    isAsciiAlphaChar (lowerChar c) = true := by
  rw [isAsciiAlphaChar_iff] at h ⊢
  have ht := lowerChar_toNat c
  rcases h with h | h
  · rw [if_neg (by omega)] at ht
    omega
  · rw [if_pos (by omega)] at ht
    omega

/-- `lowerChar` keeps code points below 128. -/
theorem lowerChar_toNat_lt (c : Char) (h : c.toNat < 128) :
    (lowerChar c).toNat < 128 := by
  have ht := lowerChar_toNat c
  by_cases hc : 65 ≤ c.toNat ∧ c.toNat ≤ 90
  · rw [if_pos hc] at ht
    omega
  · rw [if_neg hc] at ht
    omega

/-- Digit test over code points. -/
theorem isDigitChar_iff (c : Char) :
    isDigitChar c = true ↔ (48 ≤ c.toNat ∧ c.toNat ≤ 57) := by
  simp only [isDigitChar, Bool.and_eq_true, decide_eq_true_eq]
  exact Iff.rfl

/-- `lowerChar` preserves scheme characters. -/
theorem isSchemeChar_lowerChar (c : Char) (h : isSchemeChar c = true) :
    isSchemeChar (lowerChar c) = true := by
  simp only [isSchemeChar, Bool.or_eq_true, beq_iff_eq] at h ⊢
  rcases h with (((h | h) | h) | h) | h
  · exact Or.inl (Or.inl (Or.inl (Or.inl (isAsciiAlphaChar_lowerChar c h))))
  · rw [isDigitChar_iff] at h
    rw [lowerChar_fixed c (by omega)]
    refine Or.inl (Or.inl (Or.inl (Or.inr ?_)))
    rw [isDigitChar_iff]
    exact h
  · subst h; decide
  · subst h; decide
  · subst h; decide

/-- Scheme characters are never removed-unsafe bytes. -/
theorem isSchemeChar_not_unsafe (c : Char) (h : isSchemeChar c = true) :
    isUnsafeUrlByte c = false := by
  cases hu : isUnsafeUrlByte c
  · rfl
  · exfalso
    simp only [isUnsafeUrlByte, Bool.or_eq_true, beq_iff_eq] at hu
    rcases hu with (rfl | rfl) | rfl <;>
      simp [isSchemeChar, isAsciiAlphaChar, isDigitChar] at h

/-- Scheme characters are never `:`. -/
theorem isSchemeChar_ne_colon (c : Char) (h : isSchemeChar c = true) : c ≠ ':' := by
  intro hc
  subst hc
  simp [isSchemeChar, isAsciiAlphaChar, isDigitChar] at h

/-- UTF-8 bytes are below 256. -/
theorem mem_encodeCharUtf8_lt (c : Char) (b : Nat) (h : b ∈ encodeCharUtf8 c) :
    b < 256 := by
  have hval : c.toNat < 1114112 := by
    have he : c.toNat = c.val.toNat := rfl
    rcases c.valid with hv | hv
    · omega
    · omega
  rw [encodeCharUtf8] at h
  by_cases h1 : c.toNat < 0x80
  · rw [if_pos h1] at h
    simp only [List.mem_singleton] at h
    omega
  · rw [if_neg h1] at h
    by_cases h2 : c.toNat < 0x800
    · rw [if_pos h2] at h
      simp only [List.mem_cons, List.not_mem_nil, or_false] at h
      rcases h with h | h <;> omega
    · rw [if_neg h2] at h
      by_cases h3 : c.toNat < 0x10000
      · rw [if_pos h3] at h
        simp only [List.mem_cons, List.not_mem_nil, or_false] at h
        rcases h with h | h | h | h <;> omega
      · rw [if_neg h3] at h
        simp only [List.mem_cons, List.not_mem_nil, or_false] at h
        rcases h with h | h | h | h <;> omega

/-- All bytes of a UTF-8 encoding are below 256. -/
theorem mem_utf8Bytes_lt (s : List Char) (b : Nat) (h : b ∈ utf8Bytes s) :
    b < 256 := by
  rw [utf8Bytes] at h
  rcases List.mem_flatMap.mp h with ⟨c, _, hbc⟩
  exact mem_encodeCharUtf8_lt c b hbc

/-- Unreserved bytes live below 128. -/
theorem isAlwaysSafeByte_lt (b : Nat) (h : isAlwaysSafeByte b = true) : b < 128 := by
  simp only [isAlwaysSafeByte, Bool.or_eq_true, Bool.and_eq_true, decide_eq_true_eq,
    beq_iff_eq] at h
  omega

/-- An unreserved byte renders as a query-safe character. -/
theorem qsafe_always_safe :
    ∀ b < 128, isAlwaysSafeByte b = true → qsafeChar (Char.ofNat b) = true := by decide

/-- Hex digits are query-safe. -/
theorem qsafe_hexUpperDigit : ∀ n < 16, qsafeChar (hexUpperDigit n) = true := by decide

/-- `quote_from_bytes` with an empty safe set emits only query-safe
characters. -/
theorem quoteByte_nil_qsafe (b : Nat) (hb : b < 256) :
    ∀ ch ∈ quoteByte [] b, qsafeChar ch = true := by
  intro ch hch
  rw [quoteByte] at hch
  cases hs : isAlwaysSafeByte b with
  | true =>
    rw [if_pos (by simp [hs])] at hch
    simp only [List.mem_singleton] at hch
    subst hch
    exact qsafe_always_safe b (isAlwaysSafeByte_lt b hs) hs
  | false =>
    rw [if_neg (by rw [hs]; simp [List.contains])] at hch
    simp only [List.mem_cons, List.not_mem_nil, or_false] at hch
    rcases hch with h | h | h
    · subst h; decide
    · subst h; exact qsafe_hexUpperDigit (b / 16) (by omega)
    · subst h
      exact qsafe_hexUpperDigit (b % 16) (by omega)

/-- `quote_from_bytes` with space marked safe emits query-safe characters
or a literal space. -/
theorem quoteByte_space_qsafe (b : Nat) (hb : b < 256) :
    ∀ ch ∈ quoteByte [32] b, qsafeChar ch = true ∨ ch = ' ' := by
  intro ch hch
  rw [quoteByte] at hch
  by_cases hb32 : b = 32
  · subst hb32
    rw [if_pos (by decide)] at hch
    simp only [List.mem_singleton] at hch
    subst hch
    exact Or.inr rfl
  · cases hs : isAlwaysSafeByte b with
    | true =>
      rw [if_pos (by simp [hs])] at hch
      simp only [List.mem_singleton] at hch
      subst hch
      exact Or.inl (qsafe_always_safe b (isAlwaysSafeByte_lt b hs) hs)
    | false =>
      have hcon : ([32] : List Nat).contains b = false := by
        simp [List.contains, hb32]
      rw [if_neg (by rw [hs, hcon]; simp)] at hch
      simp only [List.mem_cons, List.not_mem_nil, or_false] at hch
      rcases hch with h | h | h
      · subst h; exact Or.inl (by decide)
      · subst h; exact Or.inl (qsafe_hexUpperDigit (b / 16) (by omega))
      · subst h
        exact Or.inl (qsafe_hexUpperDigit (b % 16) (by omega))

/-- `quote` with no safe characters is query-safe throughout. -/
theorem pyQuote_nil_qsafe (s : List Char) :
    ∀ ch ∈ pyQuote [] s, qsafeChar ch = true := by
  intro ch hch
  rw [pyQuote] at hch
  rcases List.mem_flatMap.mp hch with ⟨b, hb, hchb⟩
  exact quoteByte_nil_qsafe b (mem_utf8Bytes_lt s b hb) ch
    (by simpa using hchb)

/-- `quote` with space safe: query-safe or a literal space. -/
theorem pyQuote_space_qsafe (s : List Char) :
    ∀ ch ∈ pyQuote [' '] s, qsafeChar ch = true ∨ ch = ' ' := by
  intro ch hch
  rw [pyQuote] at hch
  rcases List.mem_flatMap.mp hch with ⟨b, hb, hchb⟩
  have hsafe : (([' '].map Char.toNat).filter (· < 128)) = [32] := by decide
  rw [hsafe] at hchb
  exact quoteByte_space_qsafe b (mem_utf8Bytes_lt s b hb) ch hchb

/-- `quote_plus` output is query-safe. -/
theorem quote_plus_qsafe (s : List Char) :
    ∀ ch ∈ quote_plus s, qsafeChar ch = true := by
  intro ch hch
  rw [quote_plus] at hch
  by_cases hsp : ¬s.contains ' '
  · rw [if_pos hsp] at hch
    exact pyQuote_nil_qsafe s ch hch
  · rw [if_neg hsp] at hch
    rcases List.mem_map.mp hch with ⟨c, hc, hmap⟩
    rcases pyQuote_space_qsafe s c hc with hq | hsp2
    · have hc' : ¬c = ' ' := by
        intro hce
        subst hce
        exact absurd hq (by decide)
      rw [if_neg hc'] at hmap
      exact hmap ▸ hq
    · subst hsp2
      rw [if_pos rfl] at hmap
      subst hmap
      decide

/-- Characters of a `sep.join` come from the separator or a part. -/
theorem mem_joinSep (sep : Char) :
    ∀ (ls : List (List Char)) (ch : Char),
      ch ∈ joinSep sep ls → ch = sep ∨ ∃ l ∈ ls, ch ∈ l
  | [], ch, h => absurd h (List.not_mem_nil ch)
  | [x], ch, h => Or.inr ⟨x, List.mem_singleton_self x, h⟩
  | x :: y :: ys, ch, h => by
    rw [show joinSep sep (x :: y :: ys) = x ++ sep :: joinSep sep (y :: ys) from rfl] at h
    rcases List.mem_append.mp h with h | h
    · exact Or.inr ⟨x, List.mem_cons_self _ _, h⟩
    · rcases List.mem_cons.mp h with h | h
      · exact Or.inl h
      · rcases mem_joinSep sep (y :: ys) ch h with h | ⟨l, hl, hcl⟩
        · exact Or.inl h
        · exact Or.inr ⟨l, List.mem_cons_of_mem x hl, hcl⟩

/-- Every character of an `urlencode` result is query-safe. -/
theorem urlencode_qsafe (ps : List (List Char × List Char)) :
    ∀ ch ∈ urlencode ps, qsafeChar ch = true := by
  intro ch hch
  rw [urlencode] at hch
  rcases mem_joinSep '&' _ ch hch with h | ⟨l, hl, hcl⟩
  · subst h; decide
  · rcases List.mem_map.mp hl with ⟨kv, _, hkv⟩
    subst hkv
    rcases List.mem_append.mp hcl with h | h
    · exact quote_plus_qsafe _ ch h
    · rcases List.mem_cons.mp h with h | h
      · subst h; decide
      · exact quote_plus_qsafe _ ch h

/-- Query-safe characters avoid the URL delimiters. -/
theorem qsafe_ne_delims (c : Char) (h : qsafeChar c = true) :
    c ≠ '#' ∧ c ≠ '?' ∧ c ≠ ':' ∧ c ≠ '/' := by
  refine ⟨?_, ?_, ?_, ?_⟩ <;> rintro rfl <;> exact absurd h (by decide)

/-- Query-safe characters are printable ASCII. -/
theorem qsafe_toNat (c : Char) (h : qsafeChar c = true) :
    32 < c.toNat ∧ c.toNat < 128 := by
  simp only [qsafeChar, Bool.or_eq_true, decide_eq_true_eq] at h
  rcases h with (((h | rfl) | rfl) | rfl) | rfl
  · have := isAlwaysSafeByte_lt _ h
    simp only [isAlwaysSafeByte, Bool.or_eq_true, Bool.and_eq_true,
      decide_eq_true_eq, beq_iff_eq] at h
    omega
  · decide
  · decide
  · decide
  · decide

/-- Query-safe characters are not removed as unsafe bytes. -/
theorem qsafe_not_unsafe (c : Char) (h : qsafeChar c = true) :
    isUnsafeUrlByte c = false := by
  cases hu : isUnsafeUrlByte c with
  | false => rfl
  | true =>
    exfalso
    simp only [isUnsafeUrlByte, Bool.or_eq_true, beq_iff_eq] at hu
    rcases hu with (rfl | rfl) | rfl <;> exact absurd h (by decide)

/-- Query-safe characters are not C0 controls or space. -/
theorem qsafe_not_c0 (c : Char) (h : qsafeChar c = true) :
    isC0ControlOrSpace c = false := by
  have := qsafe_toNat c h
  simp only [isC0ControlOrSpace, decide_eq_false_iff_not]
  omega

/-- `splitAtFirstD` at an immediate delimiter. -/
theorem splitAtFirstD_cons_self (c : Char) (t : List Char) :
    splitAtFirstD c (c :: t) = ([], t) := by
  rw [splitAtFirstD,
    show splitAtFirst c (c :: t)
      = if c = c then some ([], t)
        else match splitAtFirst c t with
             | none => none
             | some (p, q) => some (c :: p, q) from rfl,
    if_pos rfl]

/-- Components of `splitAtFirstD`: the left part avoids the delimiter and
both parts draw from the input. -/
theorem splitAtFirstD_spec (c : Char) (l b a : List Char)
    (h : splitAtFirstD c l = (b, a)) :
    c ∉ b ∧ ∀ x, x ∈ b ∨ x ∈ a → x ∈ l := by
  rw [splitAtFirstD] at h
  cases hs : splitAtFirst c l with
  | none =>
    rw [hs] at h
    simp only [Prod.mk.injEq] at h
    obtain ⟨h1, h2⟩ := h
    subst h1; subst h2
    refine ⟨(splitAtFirst_eq_none c l).mp hs, ?_⟩
    intro x hx
    rcases hx with hx | hx
    · exact hx
    · exact absurd hx (List.not_mem_nil x)
  | some p =>
    obtain ⟨b2, a2⟩ := p
    rw [hs] at h
    simp only [Prod.mk.injEq] at h
    obtain ⟨h1, h2⟩ := h
    subst h1; subst h2
    obtain ⟨hl, hnb⟩ := splitAtFirst_eq_some c l b2 a2 hs
    refine ⟨hnb, ?_⟩
    intro x hx
    rw [hl]
    rcases hx with hx | hx
    · exact List.mem_append_left _ hx
    · exact List.mem_append_right _ (List.mem_cons_of_mem c hx)

/-- `splitAtFirstD` keeps a non-delimiter head on the left. -/
theorem splitAtFirstD_cons_head (c x : Char) (xs b a : List Char) (hx : ¬x = c)
    (h : splitAtFirstD c (x :: xs) = (b, a)) : ∃ t, b = x :: t := by
  rw [splitAtFirstD,
    show splitAtFirst c (x :: xs)
      = if x = c then some ([], xs)
        else match splitAtFirst c xs with
             | none => none
             | some (p, q) => some (x :: p, q) from rfl,
    if_neg hx] at h
  cases hs : splitAtFirst c xs with
  | none =>
    rw [hs] at h
    simp only [Prod.mk.injEq] at h
    exact ⟨xs, h.1.symm⟩
  | some p =>
    obtain ⟨p1, p2⟩ := p
    rw [hs] at h
    simp only [Prod.mk.injEq] at h
    exact ⟨p1, h.1.symm⟩

/-- Heads of a `dropWhile` fail the predicate. -/
theorem dropWhile_head_not (p : Char → Bool) :
    ∀ l : List Char,
      l.dropWhile p = [] ∨ ∃ x xs, l.dropWhile p = x :: xs ∧ p x = false
  | [] => Or.inl rfl
  | x :: xs => by
    rw [List.dropWhile_cons]
    by_cases hp : p x = true
    · rw [if_pos hp]
      exact dropWhile_head_not p xs
    · rw [if_neg hp]
      exact Or.inr ⟨x, xs, rfl, Bool.not_eq_true _ ▸ hp⟩

/-- Take/drop across an append at the first failing position. -/
theorem takeWhile_dropWhile_append (p : Char → Bool) :
    ∀ (a b : List Char), (∀ c ∈ a, p c = true) →
      (b = [] ∨ ∃ x xs, b = x :: xs ∧ p x = false) →
      (a ++ b).takeWhile p = a ∧ (a ++ b).dropWhile p = b
  | [], b, _, h2 => by
    rcases h2 with rfl | ⟨x, xs, rfl, hx⟩
    · exact ⟨rfl, rfl⟩
    · rw [List.nil_append, List.takeWhile_cons, List.dropWhile_cons,
        if_neg (by simp [hx]), if_neg (by simp [hx])]
      exact ⟨rfl, rfl⟩
  | c :: a, b, h1, h2 => by
    have hc : p c = true := h1 c (List.mem_cons_self c a)
    have ih := takeWhile_dropWhile_append p a b
      (fun d hd => h1 d (List.mem_cons_of_mem c hd)) h2
    rw [List.cons_append, List.takeWhile_cons, List.dropWhile_cons,
      if_pos hc, if_pos hc, ih.1, ih.2]
    exact ⟨rfl, rfl⟩

/-- The netloc splitter, replayed on a netloc followed by a delimited tail. -/
theorem splitNetloc_append (nl rest : List Char)
    (h1 : ∀ c ∈ nl, ¬(c = '/' ∨ c = '?' ∨ c = '#'))
    (h2 : rest = [] ∨ ∃ x xs, rest = x :: xs ∧ (x = '/' ∨ x = '?' ∨ x = '#')) :
    splitNetloc (nl ++ rest) = (nl, rest) := by
  rw [splitNetloc]
  have ht := takeWhile_dropWhile_append (fun c => ¬(c = '/' ∨ c = '?' ∨ c = '#'))
    nl rest
    (fun c hc => decide_eq_true (h1 c hc))
    (by
      rcases h2 with rfl | ⟨x, xs, hrest, hx⟩
      · exact Or.inl rfl
      · exact Or.inr ⟨x, xs, hrest, decide_eq_false (not_not_intro hx)⟩)
  rw [ht.1, ht.2]

/-- What `splitNetloc` guarantees about its output. -/
theorem splitNetloc_spec (l nl rest : List Char) (h : splitNetloc l = (nl, rest)) :
    (∀ c ∈ nl, ¬(c = '/' ∨ c = '?' ∨ c = '#'))
    ∧ (rest = [] ∨ ∃ x xs, rest = x :: xs ∧ (x = '/' ∨ x = '?' ∨ x = '#'))
    ∧ (∀ x, x ∈ nl ∨ x ∈ rest → x ∈ l) := by
  rw [splitNetloc] at h
  simp only [Prod.mk.injEq] at h
  obtain ⟨h1, h2⟩ := h
  subst h1; subst h2
  refine ⟨?_, ?_, ?_⟩
  · intro d hd
    have hp := List.mem_takeWhile_imp hd
    exact of_decide_eq_true hp
  · rcases dropWhile_head_not (fun c => ¬(c = '/' ∨ c = '?' ∨ c = '#')) l with
      hd | ⟨x, xs, hd, hx⟩
    · exact Or.inl hd
    · refine Or.inr ⟨x, xs, hd, ?_⟩
      have := of_decide_eq_false hx
      tauto
  · intro x hx
    rcases hx with hx | hx
    · exact (List.takeWhile_sublist _).subset hx
    · exact (List.dropWhile_sublist _).subset hx

/-- What a successful `urlsplit` guarantees about each component: the
scheme is empty or a lowercased run of scheme characters led by an ASCII
letter; the netloc avoids `/?#` and passes the bracket checks; a nonempty
netloc forces an empty or `/`-led path; path and query avoid their
delimiters; and no component retains an unsafe byte. -/
theorem urlsplit_inversion (u : List Char) (s : SplitResult)
    (h : urlsplit u = some s) :
    (s.scheme = [] ∨
      (s.scheme ≠ [] ∧ s.scheme.map lowerChar = s.scheme ∧
       (∀ c ∈ s.scheme, isSchemeChar c = true) ∧
       isAsciiAlphaChar s.scheme.headI = true ∧ s.scheme.headI.toNat < 128))
    ∧ (∀ c ∈ s.netloc, ¬(c = '/' ∨ c = '?' ∨ c = '#') ∧ isUnsafeUrlByte c = false)
    ∧ netlocBracketsOk s.netloc = true
    ∧ (s.netloc ≠ [] → s.path = [] ∨ ∃ t, s.path = '/' :: t)
    ∧ (∀ c ∈ s.path, ¬c = '#' ∧ ¬c = '?' ∧ isUnsafeUrlByte c = false)
    ∧ (∀ c ∈ s.query, ¬c = '#' ∧ isUnsafeUrlByte c = false) := by
  rw [urlsplit] at h
  have hclean : ∀ c ∈ ((u.dropWhile isC0ControlOrSpace).filter
      fun c => ¬isUnsafeUrlByte c), isUnsafeUrlByte c = false := by
    intro c hc
    have := (List.mem_filter.mp hc).2
    simpa using this
  revert h
  cases hsch : urlsplitScheme ((u.dropWhile isC0ControlOrSpace).filter
      fun c => ¬isUnsafeUrlByte c) with
  | mk scheme url3 =>
  intro h
  simp only [] at h
  have hscheme : (scheme = [] ∧
        url3 = (u.dropWhile isC0ControlOrSpace).filter fun c => ¬isUnsafeUrlByte c) ∨
      (scheme ≠ [] ∧ scheme.map lowerChar = scheme ∧
       (∀ c ∈ scheme, isSchemeChar c = true) ∧
       isAsciiAlphaChar scheme.headI = true ∧ scheme.headI.toNat < 128 ∧
       ∀ c ∈ url3, c ∈ (u.dropWhile isC0ControlOrSpace).filter
         fun c => ¬isUnsafeUrlByte c) := by
    rw [urlsplitScheme] at hsch
    revert hsch
    cases hsp : splitAtFirst ':' ((u.dropWhile isC0ControlOrSpace).filter
        fun c => ¬isUnsafeUrlByte c) with
    | none =>
      intro hsch
      simp only [Prod.mk.injEq] at hsch
      exact Or.inl ⟨hsch.1.symm, hsch.2.symm⟩
    | some p =>
      obtain ⟨before, after⟩ := p
      intro hsch
      simp only [] at hsch
      by_cases hcond : ¬before.isEmpty ∧ before.headI.toNat < 128
          ∧ isAsciiAlphaChar before.headI ∧ before.all isSchemeChar
      · rw [if_pos hcond] at hsch
        simp only [Prod.mk.injEq] at hsch
        obtain ⟨h1, h2⟩ := hsch
        subst h1; subst h2
        obtain ⟨hbe, hb128, hbalpha, hball⟩ := hcond
        obtain ⟨hspl, _⟩ := splitAtFirst_eq_some _ _ _ _ hsp
        cases before with
        | nil => exact absurd rfl hbe
        | cons b0 bs =>
          refine Or.inr ⟨by simp, ?_, ?_, ?_, ?_, ?_⟩
          · rw [List.map_map]
            exact List.map_congr_left fun c _ => lowerChar_idem c
          · intro c hc
            rcases List.mem_map.mp hc with ⟨d, hd, hdc⟩
            exact hdc ▸ isSchemeChar_lowerChar d
              (by simpa using List.all_eq_true.mp hball d hd)
          · simpa using isAsciiAlphaChar_lowerChar b0 (by simpa using hbalpha)
          · exact lowerChar_toNat_lt b0 (by simpa using hb128)
          · intro c hc
            rw [hspl]
            exact List.mem_append_right _ (List.mem_cons_of_mem ':' hc)
      · rw [if_neg hcond] at hsch
        simp only [Prod.mk.injEq] at hsch
        exact Or.inl ⟨hsch.1.symm, hsch.2.symm⟩
  have hurl3 : ∀ c ∈ url3, isUnsafeUrlByte c = false := by
    rcases hscheme with ⟨_, hu3⟩ | ⟨_, _, _, _, _, hu3⟩
    · intro c hc
      exact hclean c (hu3 ▸ hc)
    · intro c hc
      exact hclean c (hu3 c hc)
  revert h
  cases hnet : urlsplitNetloc url3 with
  | none =>
    intro h
    simp only [] at h
    exact absurd h (by simp)
  | some q =>
  obtain ⟨netloc, url4⟩ := q
  intro h
  simp only [] at h
  have hnetprops : (∀ c ∈ netloc, ¬(c = '/' ∨ c = '?' ∨ c = '#') ∧
        isUnsafeUrlByte c = false)
      ∧ netlocBracketsOk netloc = true
      ∧ (netloc ≠ [] →
          url4 = [] ∨ ∃ x xs, url4 = x :: xs ∧ (x = '/' ∨ x = '?' ∨ x = '#'))
      ∧ (∀ c ∈ url4, isUnsafeUrlByte c = false) := by
    rw [urlsplitNetloc] at hnet
    by_cases h22 : url3.take 2 = ['/', '/']
    · rw [if_pos h22] at hnet
      revert hnet
      cases hsn : splitNetloc (url3.drop 2) with
      | mk nl u4 =>
      intro hnet
      obtain ⟨hn1, hn2, hn3⟩ := splitNetloc_spec (url3.drop 2) nl u4 hsn
      by_cases hbr : netlocBracketsOk nl = true
      · rw [if_pos (show netlocBracketsOk (nl, u4).1 = true from hbr)] at hnet
        simp only [Option.some.injEq, Prod.mk.injEq] at hnet
        obtain ⟨h1, h2⟩ := hnet
        subst h1; subst h2
        refine ⟨?_, hbr, fun _ => hn2, ?_⟩
        · intro c hc
          exact ⟨hn1 c hc,
            hurl3 c (List.drop_subset 2 url3 (hn3 c (Or.inl hc)))⟩
        · intro c hc
          exact hurl3 c (List.drop_subset 2 url3 (hn3 c (Or.inr hc)))
      · rw [if_neg (show ¬netlocBracketsOk (nl, u4).1 = true from hbr)] at hnet
        exact absurd hnet (by simp)
    · rw [if_neg h22] at hnet
      simp only [Option.some.injEq, Prod.mk.injEq] at hnet
      obtain ⟨h1, h2⟩ := hnet
      subst h1; subst h2
      exact ⟨fun c hc => absurd hc (List.not_mem_nil c), by decide,
        fun hne => absurd rfl hne, hurl3⟩
  obtain ⟨hnm, hbr, hshape, hu4⟩ := hnetprops
  revert h
  cases hfr : splitAtFirstD '#' url4 with
  | mk url5 fragment =>
  intro h
  simp only [] at h
  revert h
  cases hqu : splitAtFirstD '?' url5 with
  | mk path query =>
  intro h
  simp only [Option.some.injEq] at h
  subst h
  obtain ⟨hfr1, hfr2⟩ := splitAtFirstD_spec '#' url4 url5 fragment hfr
  obtain ⟨hqu1, hqu2⟩ := splitAtFirstD_spec '?' url5 path query hqu
  refine ⟨?_, hnm, hbr, ?_, ?_, ?_⟩
  · rcases hscheme with ⟨h1, _⟩ | ⟨h1, h2, h3, h4, h5, _⟩
    · exact Or.inl h1
    · exact Or.inr ⟨h1, h2, h3, h4, h5⟩
  · intro hne
    rcases hshape hne with hu4e | ⟨x, xs, hu4e, hx⟩
    · subst hu4e
      rw [show splitAtFirstD '#' ([] : List Char) = ([], []) from rfl] at hfr
      simp only [Prod.mk.injEq] at hfr
      obtain ⟨h5, _⟩ := hfr
      rw [← h5] at hqu
      rw [show splitAtFirstD '?' ([] : List Char) = ([], []) from rfl] at hqu
      simp only [Prod.mk.injEq] at hqu
      exact Or.inl hqu.1.symm
    · subst hu4e
      rcases hx with rfl | rfl | rfl
      · obtain ⟨t, h5⟩ := splitAtFirstD_cons_head '#' '/' xs url5 fragment
          (by decide) hfr
        subst h5
        obtain ⟨t2, hp⟩ := splitAtFirstD_cons_head '?' '/' t path query
          (by decide) hqu
        exact Or.inr ⟨t2, hp⟩
      · obtain ⟨t, h5⟩ := splitAtFirstD_cons_head '#' '?' xs url5 fragment
          (by decide) hfr
        subst h5
        rw [splitAtFirstD_cons_self '?' t] at hqu
        simp only [Prod.mk.injEq] at hqu
        exact Or.inl hqu.1.symm
      · rw [splitAtFirstD_cons_self '#' xs] at hfr
        simp only [Prod.mk.injEq] at hfr
        rw [← hfr.1] at hqu
        rw [show splitAtFirstD '?' ([] : List Char) = ([], []) from rfl] at hqu
        simp only [Prod.mk.injEq] at hqu
        exact Or.inl hqu.1.symm
  · intro c hc
    have hcu5 := hqu2 c (Or.inl hc)
    exact ⟨fun hce => hfr1 (hce ▸ hcu5), fun hce => hqu1 (hce ▸ hc),
      hu4 c (hfr2 c (Or.inl hcu5))⟩
  · intro c hc
    have hcu5 := hqu2 c (Or.inr hc)
    exact ⟨fun hce => hfr1 (hce ▸ hcu5), hu4 c (hfr2 c (Or.inl hcu5))⟩

/-- `urlsplitScheme` replayed on a well-formed scheme and tail. -/
theorem urlsplitScheme_replay (scheme rest : List Char) (hne : scheme ≠ [])
    (hall : ∀ c ∈ scheme, isSchemeChar c = true)
    (hlow : List.map lowerChar scheme = scheme)
    (halpha : isAsciiAlphaChar scheme.headI = true)
    (h128 : scheme.headI.toNat < 128) :
    urlsplitScheme (scheme ++ ':' :: rest) = (scheme, rest) := by
  have hne' : ¬scheme.isEmpty = true := by
    cases scheme with
    | nil => exact absurd rfl hne
    | cons a l => simp
  rw [urlsplitScheme,
    splitAtFirst_append ':' scheme rest
      (fun hm => isSchemeChar_ne_colon _ (hall _ hm) rfl)]
  simp only []
  rw [if_pos ⟨hne', h128, halpha, List.all_eq_true.mpr hall⟩, hlow]

/-- `urlsplitScheme` finds no scheme on a slash-led string. -/
theorem urlsplitScheme_slash (t : List Char) :
    urlsplitScheme ('/' :: t) = ([], '/' :: t) := by
  rw [urlsplitScheme]
  cases hsp : splitAtFirst ':' ('/' :: t) with
  | none => rfl
  | some p =>
    obtain ⟨b, a⟩ := p
    simp only []
    obtain ⟨hl, hnb⟩ := splitAtFirst_eq_some ':' ('/' :: t) b a hsp
    cases b with
    | nil =>
      rw [if_neg]
      intro hcond
      exact hcond.1 rfl
    | cons b0 bs =>
      rw [List.cons_append] at hl
      injection hl with h1 h2
      subst h1
      rw [if_neg]
      intro hcond
      exact absurd (show isAsciiAlphaChar '/' = true from hcond.2.2.1) (by decide)

/-- Evaluate `urlsplit` from precomputed stage results. -/
theorem urlsplit_eval (c scheme url3 netloc rest path Q : List Char)
    (hclean1 : c.dropWhile isC0ControlOrSpace = c)
    (hclean2 : c.filter (fun d => ¬isUnsafeUrlByte d) = c)
    (hsch : urlsplitScheme c = (scheme, url3))
    (hnet : urlsplitNetloc url3 = some (netloc, rest))
    (hfrag : splitAtFirstD '#' rest = (rest, []))
    (hquery : splitAtFirstD '?' rest = (path, Q)) :
    urlsplit c = some ⟨scheme, netloc, path, Q, []⟩ := by
  simp only [urlsplit]
  rw [hclean1, hclean2, hsch]
  simp only []
  rw [hnet]
  simp only []
  rw [hfrag]
  simp only []
  rw [hquery]

/-- `urlsplitNetloc` replayed on a rebuilt `//netloc…` string. -/
theorem urlsplitNetloc_replay (netloc R : List Char)
    (hnml : ∀ c ∈ netloc, ¬(c = '/' ∨ c = '?' ∨ c = '#'))
    (hbr : netlocBracketsOk netloc = true)
    (hR : R = [] ∨ ∃ x xs, R = x :: xs ∧ (x = '/' ∨ x = '?' ∨ x = '#')) :
    urlsplitNetloc ('/' :: '/' :: (netloc ++ R)) = some (netloc, R) := by
  rw [urlsplitNetloc,
    if_pos (show ('/' :: '/' :: (netloc ++ R)).take 2 = ['/', '/'] from rfl),
    show ('/' :: '/' :: (netloc ++ R)).drop 2 = netloc ++ R from rfl,
    splitNetloc_append netloc R hnml hR,
    if_pos (show netlocBracketsOk (netloc, R).1 = true from hbr)]

/-- Splitting the URL that `urlunsplit` rebuilds from well-formed
components recovers exactly those components. -/
theorem urlsplit_rebuild (scheme netloc path Q : List Char)
    (hsch : scheme = [] ∨ (scheme ≠ [] ∧ (∀ c ∈ scheme, isSchemeChar c = true) ∧
      List.map lowerChar scheme = scheme ∧ isAsciiAlphaChar scheme.headI = true))
    (hnl : netloc ≠ [])
    (hnm : ∀ c ∈ netloc, ¬(c = '/' ∨ c = '?' ∨ c = '#') ∧ isUnsafeUrlByte c = false)
    (hbr : netlocBracketsOk netloc = true)
    (hpath : path = [] ∨ ∃ t, path = '/' :: t)
    (hpc : ∀ c ∈ path, ¬c = '#' ∧ ¬c = '?' ∧ isUnsafeUrlByte c = false)
    (hq : ∀ c ∈ Q, qsafeChar c = true) :
    urlsplit (urlunsplit ⟨scheme, netloc, path, Q, []⟩)
      = some ⟨scheme, netloc, path, Q, []⟩ := by
  have hnml : ∀ c ∈ netloc, ¬(c = '/' ∨ c = '?' ∨ c = '#') := fun c hc => (hnm c hc).1
  have hnu : ∀ c ∈ netloc, isUnsafeUrlByte c = false := fun c hc => (hnm c hc).2
  have hpu : ∀ c ∈ path, isUnsafeUrlByte c = false := fun c hc => (hpc c hc).2.2
  have hqu : ∀ c ∈ Q, isUnsafeUrlByte c = false :=
    fun c hc => qsafe_not_unsafe c (hq c hc)
  have hph : '#' ∉ path := fun hm => (hpc _ hm).1 rfl
  have hpq : '?' ∉ path := fun hm => (hpc _ hm).2.1 rfl
  have hqh : '#' ∉ Q := fun hm => (qsafe_ne_delims _ (hq _ hm)).1 rfl
  have hne' : ¬netloc.isEmpty = true := by
    cases netloc with
    | nil => exact absurd rfl hnl
    | cons a l => simp
  have hinner : (if ¬path.isEmpty ∧ path.take 1 ≠ ['/'] then '/' :: path else path)
      = path := by
    rcases hpath with rfl | ⟨t, rfl⟩
    · rw [if_neg]
      intro hcond
      exact hcond.1 rfl
    · rw [if_neg]
      intro hcond
      exact hcond.2 rfl
  by_cases hQe : Q = []
  · subst hQe
    have hRshape : path = [] ∨ ∃ x xs, path = x :: xs ∧ (x = '/' ∨ x = '?' ∨ x = '#') := by
      rcases hpath with rfl | ⟨t, rfl⟩
      · exact Or.inl rfl
      · exact Or.inr ⟨'/', t, rfl, Or.inl rfl⟩
    have hnet := urlsplitNetloc_replay netloc path hnml hbr hRshape
    have hfrag : splitAtFirstD '#' path = (path, []) :=
      splitAtFirstD_of_not_mem '#' path hph
    have hquery : splitAtFirstD '?' path = (path, []) :=
      splitAtFirstD_of_not_mem '?' path hpq
    rcases hsch with rfl | ⟨hsne, hsall, hslow, hsalpha⟩
    · have hc : urlunsplit ⟨[], netloc, path, [], []⟩
          = '/' :: '/' :: (netloc ++ path) := by
        simp only [urlunsplit]
        rw [if_pos (Or.inl hne'), hinner, if_neg (fun hcontra => hcontra rfl),
          if_neg (fun hcontra => hcontra rfl), if_neg (fun hcontra => hcontra rfl)]
      rw [hc]
      have hall : ∀ a ∈ '/' :: '/' :: (netloc ++ path), isUnsafeUrlByte a = false := by
        intro a ha
        rcases List.mem_cons.mp ha with rfl | ha
        · decide
        rcases List.mem_cons.mp ha with rfl | ha
        · decide
        rcases List.mem_append.mp ha with ha | ha
        · exact hnu a ha
        · exact hpu a ha
      exact urlsplit_eval _ [] ('/' :: '/' :: (netloc ++ path)) netloc path path []
        (by rw [List.dropWhile_cons, if_neg (by decide)])
        (List.filter_eq_self.mpr (fun a ha => by simp [hall a ha]))
        (urlsplitScheme_slash _) hnet hfrag hquery
    · cases scheme with
      | nil => exact absurd rfl hsne
      | cons s0 ss =>
      have hs0alpha : isAsciiAlphaChar s0 = true := hsalpha
      have hs0nat := (isAsciiAlphaChar_iff s0).mp hs0alpha
      have h128 : (s0 :: ss).headI.toNat < 128 := by
        show s0.toNat < 128
        rcases hs0nat with h | h <;> omega
      have hc0 : ¬isC0ControlOrSpace s0 = true := by
        simp only [isC0ControlOrSpace, decide_eq_true_eq]
        rcases hs0nat with h | h <;> omega
      have hc : urlunsplit ⟨s0 :: ss, netloc, path, [], []⟩
          = (s0 :: ss) ++ ':' :: ('/' :: '/' :: (netloc ++ path)) := by
        simp only [urlunsplit]
        rw [if_pos (Or.inl hne'), hinner,
          if_pos (show ¬(s0 :: ss).isEmpty = true by simp),
          if_neg (fun hcontra => hcontra rfl), if_neg (fun hcontra => hcontra rfl)]
      rw [hc]
      have hall : ∀ a ∈ (s0 :: ss) ++ ':' :: ('/' :: '/' :: (netloc ++ path)),
          isUnsafeUrlByte a = false := by
        intro a ha
        rcases List.mem_append.mp ha with ha | ha
        · exact isSchemeChar_not_unsafe a (hsall a ha)
        rcases List.mem_cons.mp ha with rfl | ha
        · decide
        rcases List.mem_cons.mp ha with rfl | ha
        · decide
        rcases List.mem_cons.mp ha with rfl | ha
        · decide
        rcases List.mem_append.mp ha with ha | ha
        · exact hnu a ha
        · exact hpu a ha
      exact urlsplit_eval _ (s0 :: ss) ('/' :: '/' :: (netloc ++ path)) netloc
        path path []
        (by rw [List.cons_append, List.dropWhile_cons, if_neg hc0])
        (List.filter_eq_self.mpr (fun a ha => by simp [hall a ha]))
        (urlsplitScheme_replay (s0 :: ss) _ (by simp) hsall hslow hsalpha h128)
        hnet hfrag hquery
  · have hQne : ¬Q.isEmpty = true := by
      cases Q with
      | nil => exact absurd rfl hQe
      | cons a l => simp
    have hRshape : path ++ '?' :: Q = [] ∨
        ∃ x xs, path ++ '?' :: Q = x :: xs ∧ (x = '/' ∨ x = '?' ∨ x = '#') := by
      rcases hpath with rfl | ⟨t, rfl⟩
      · exact Or.inr ⟨'?', Q, rfl, Or.inr (Or.inl rfl)⟩
      · exact Or.inr ⟨'/', t ++ '?' :: Q, by rw [List.cons_append], Or.inl rfl⟩
    have hnet := urlsplitNetloc_replay netloc (path ++ '?' :: Q) hnml hbr hRshape
    have hfrag : splitAtFirstD '#' (path ++ '?' :: Q) = (path ++ '?' :: Q, []) := by
      refine splitAtFirstD_of_not_mem _ _ ?_
      intro hm
      rcases List.mem_append.mp hm with hm | hm
      · exact hph hm
      rcases List.mem_cons.mp hm with he | hm
      · exact absurd he (by decide)
      · exact hqh hm
    have hquery := splitAtFirstD_append '?' path Q hpq
    rcases hsch with rfl | ⟨hsne, hsall, hslow, hsalpha⟩
    · have hc : urlunsplit ⟨[], netloc, path, Q, []⟩
          = ('/' :: '/' :: (netloc ++ path)) ++ '?' :: Q := by
        simp only [urlunsplit]
        rw [if_pos (Or.inl hne'), hinner, if_neg (fun hcontra => hcontra rfl),
          if_pos hQne, if_neg (fun hcontra => hcontra rfl)]
      rw [hc]
      have hceq : ('/' :: '/' :: (netloc ++ path)) ++ '?' :: Q
          = '/' :: '/' :: (netloc ++ (path ++ '?' :: Q)) := by
        simp only [List.cons_append, List.append_assoc]
      rw [hceq]
      have hall : ∀ a ∈ '/' :: '/' :: (netloc ++ (path ++ '?' :: Q)),
          isUnsafeUrlByte a = false := by
        intro a ha
        rcases List.mem_cons.mp ha with rfl | ha
        · decide
        rcases List.mem_cons.mp ha with rfl | ha
        · decide
        rcases List.mem_append.mp ha with ha | ha
        · exact hnu a ha
        rcases List.mem_append.mp ha with ha | ha
        · exact hpu a ha
        rcases List.mem_cons.mp ha with rfl | ha
        · decide
        · exact hqu a ha
      exact urlsplit_eval _ [] ('/' :: '/' :: (netloc ++ (path ++ '?' :: Q)))
        netloc (path ++ '?' :: Q) path Q
        (by rw [List.dropWhile_cons, if_neg (by decide)])
        (List.filter_eq_self.mpr (fun a ha => by simp [hall a ha]))
        (urlsplitScheme_slash _) hnet hfrag hquery
    · cases scheme with
      | nil => exact absurd rfl hsne
      | cons s0 ss =>
      have hs0alpha : isAsciiAlphaChar s0 = true := hsalpha
      have hs0nat := (isAsciiAlphaChar_iff s0).mp hs0alpha
      have h128 : (s0 :: ss).headI.toNat < 128 := by
        show s0.toNat < 128
        rcases hs0nat with h | h <;> omega
      have hc0 : ¬isC0ControlOrSpace s0 = true := by
        simp only [isC0ControlOrSpace, decide_eq_true_eq]
        rcases hs0nat with h | h <;> omega
      have hc : urlunsplit ⟨s0 :: ss, netloc, path, Q, []⟩
          = ((s0 :: ss) ++ ':' :: ('/' :: '/' :: (netloc ++ path))) ++ '?' :: Q := by
        simp only [urlunsplit]
        rw [if_pos (Or.inl hne'), hinner,
          if_pos (show ¬(s0 :: ss).isEmpty = true by simp),
          if_pos hQne, if_neg (fun hcontra => hcontra rfl)]
      rw [hc]
      have hceq : ((s0 :: ss) ++ ':' :: ('/' :: '/' :: (netloc ++ path))) ++ '?' :: Q
          = (s0 :: ss) ++ ':' :: ('/' :: '/' :: (netloc ++ (path ++ '?' :: Q))) := by
        simp only [List.cons_append, List.append_assoc]
      rw [hceq]
      have hall : ∀ a ∈ (s0 :: ss) ++ ':' :: ('/' :: '/' :: (netloc ++ (path ++ '?' :: Q))),
          isUnsafeUrlByte a = false := by
        intro a ha
        rcases List.mem_append.mp ha with ha | ha
        · exact isSchemeChar_not_unsafe a (hsall a ha)
        rcases List.mem_cons.mp ha with rfl | ha
        · decide
        rcases List.mem_cons.mp ha with rfl | ha
        · decide
        rcases List.mem_cons.mp ha with rfl | ha
        · decide
        rcases List.mem_append.mp ha with ha | ha
        · exact hnu a ha
        rcases List.mem_append.mp ha with ha | ha
        · exact hpu a ha
        rcases List.mem_cons.mp ha with rfl | ha
        · decide
        · exact hqu a ha
      exact urlsplit_eval _ (s0 :: ss)
        ('/' :: '/' :: (netloc ++ (path ++ '?' :: Q))) netloc
        (path ++ '?' :: Q) path Q
        (by rw [List.cons_append, List.dropWhile_cons, if_neg hc0])
        (List.filter_eq_self.mpr (fun a ha => by simp [hall a ha]))
        (urlsplitScheme_replay (s0 :: ss) _ (by simp) hsall hslow hsalpha h128)
        hnet hfrag hquery

/-- C10 counterexample: the spec says canonicalization leaves scheme,
netloc and path exactly as in the input, but for `http:////a?q` (parsed
netloc empty, path `//a`) the rebuilt URL `http://a?q=` re-parses with
netloc `a` and empty path: the path component is not preserved. -/
theorem canonicalize_path_change_cex :
    canonicalize_url "http:////a?q" = some "http://a?q=" ∧
    (urlsplit (chars "http:////a?q")).map SplitResult.netloc = some []
    ∧ (urlsplit (chars "http:////a?q")).map SplitResult.path = some (chars "//a")
    ∧ (urlsplit (chars "http://a?q=")).map SplitResult.netloc = some (chars "a")
    ∧ (urlsplit (chars "http://a?q=")).map SplitResult.path = some [] := by
  refine ⟨?_, ?_, ?_, ?_, ?_⟩ <;> rfl

/-- C10 (corrected): for every URL that `urlsplit` parses with a
*nonempty* network location, `_canonicalize_url` rebuilds the URL from the
parsed scheme, netloc and path unchanged, an empty fragment, and a query
equal to the re-encoding of the kept (non-tracking) parameters — and
re-parsing its output recovers exactly those components.  (With an empty
parsed netloc the path is not preserved; see the counterexample.) -/
theorem canonicalize_frame (u : List Char) (s : SplitResult)
    (hsplit : urlsplit u = some s) (hnl : s.netloc ≠ []) :
    canonicalizeCore u
      = some (urlunsplit ⟨s.scheme, s.netloc, s.path,
          urlencode (keptParams s.query), []⟩)
    ∧ urlsplit (urlunsplit ⟨s.scheme, s.netloc, s.path,
          urlencode (keptParams s.query), []⟩)
      = some ⟨s.scheme, s.netloc, s.path, urlencode (keptParams s.query), []⟩ := by
  obtain ⟨hs, hn, hb, hp, hpc, hqc⟩ := urlsplit_inversion u s hsplit
  constructor
  · rw [canonicalizeCore, hsplit]
    rfl
  · refine urlsplit_rebuild s.scheme s.netloc s.path _ ?_ hnl hn hb (hp hnl) hpc ?_
    · rcases hs with h | ⟨h1, h2, h3, h4, _⟩
      · exact Or.inl h
      · exact Or.inr ⟨h1, h3, h2, h4⟩
    · exact urlencode_qsafe _

/-- Witness: `canonicalize_frame` applied to a concrete URL with a
tracking parameter and a fragment. -/
theorem canonicalize_frame_witness :
    urlsplit (chars "https://x.com/a?utm_source=x&id=1#frag")
      = some ⟨chars "https", chars "x.com", chars "/a",
          chars "utm_source=x&id=1", chars "frag"⟩
    ∧ chars "x.com" ≠ []
    ∧ canonicalizeCore (chars "https://x.com/a?utm_source=x&id=1#frag")
      = some (urlunsplit ⟨chars "https", chars "x.com", chars "/a",
          urlencode (keptParams (chars "utm_source=x&id=1")), []⟩) :=
  ⟨by rfl, by decide,
   (canonicalize_frame (chars "https://x.com/a?utm_source=x&id=1#frag")
      ⟨chars "https", chars "x.com", chars "/a",
        chars "utm_source=x&id=1", chars "frag"⟩
      (by rfl) (by decide)).1⟩

end GroundTruth
